import Mathlib

/-! MultitaskingEngine: the circular queue of `SwiftBenchmarks/CQueue/circular_queue.c`,
the variable store of `SwiftBenchmarks/CVariableStore/c_variable_store.c` and the pointer
conversions of `CSources/PointerUtilities/include/pointer_utilities_bridge.h`.

A shallow embedding of `initQueue`, `enqueue` and `dequeue`, proofs of the sequential
contract of the queue and of its contract for one producer thread and one consumer thread;
then the variable store and the two conversions.

Modelling conventions.

* A C `int` is a Lean `Int`. The only arithmetic on indices is `x + 1` and
  `x % QUEUE_SIZE`; signed overflow of `x + 1` and an access to `buffer`
  outside `[0, QUEUE_SIZE)` are undefined behaviour in C and make the embedded
  function return `none`.
* `%` on C integers truncates towards zero: it is `Int.tmod`.
* The array `int buffer[QUEUE_SIZE]` is a function `Fin N → Int`.
* The capacity `N` is a parameter of every definition; the program fixes it
  to `QUEUE_SIZE = 1024`.
* `atomic_load` / `atomic_store` are plain reads and writes of the field. A call of
  `enqueue` or `dequeue` by a single thread is one function of the state; for two threads
  the calls are cut into their accesses to shared memory and interleaved by a schedule.
* `dequeue` receives the content of the caller's output cell (`*value` before
  the call) and returns its content after the call.
-/

namespace CQueue

/-- The constant `QUEUE_SIZE` of `circular_queue.c`. -/
def QUEUE_SIZE : Nat := 1024

/-- Largest value of a 32-bit C `int`. -/
def INT_MAX : Int := 2147483647

/-- The struct `CircularQueue`, with the array length as a parameter. -/
structure CircularQueue (N : Nat) where
  buffer : Fin N → Int
  head : Int
  tail : Int

/-- The function `initQueue`: both indices are stored as `0`, the buffer is not touched. -/
def initQueue (N : Nat) (q : CircularQueue N) : CircularQueue N :=
  { buffer := q.buffer, head := 0, tail := 0 }

/-- The function `enqueue`. The result is `none` on undefined behaviour, and otherwise
the returned `bool` with the queue after the call. -/
def enqueue (N : Nat) (q : CircularQueue N) (value : Int) : Option (Bool × CircularQueue N) :=
  let head := q.head
  let tail := q.tail
  if INT_MAX < tail + 1 then none
  else if Int.tmod (tail + 1) (N : Int) = head then some (false, q)
  else if h : 0 ≤ tail ∧ tail < (N : Int) then
    some (true,
      { buffer := Function.update q.buffer ⟨tail.toNat, by omega⟩ value
        head := q.head
        tail := Int.tmod (tail + 1) (N : Int) })
  else none

/-- The function `dequeue`. The argument `out` is the content of `*value` before the call.
The result is `none` on undefined behaviour, and otherwise the returned `bool`, the content
of `*value` after the call and the queue after the call. -/
def dequeue (N : Nat) (q : CircularQueue N) (out : Int) :
    Option (Bool × Int × CircularQueue N) :=
  let head := q.head
  let tail := q.tail
  if head = tail then some (false, out, q)
  else if h : 0 ≤ head ∧ head < (N : Int) then
    if INT_MAX < head + 1 then none
    else
      some (true, q.buffer ⟨head.toNat, by omega⟩,
        { buffer := q.buffer
          head := Int.tmod (head + 1) (N : Int)
          tail := q.tail })
  else none

/-- A call made by a client of the queue. -/
inductive Call where
  | enqueue (value : Int)
  | dequeue
  deriving DecidableEq, Repr

/-- What a client observes of one call: the call, the returned `bool`, and the content of
its output cell after the call. -/
structure Event where
  call : Call
  ok : Bool
  cell : Int
  deriving DecidableEq, Repr

/-- One call of a client on the queue `q`, the client's output cell holding `cell`. -/
def step (N : Nat) (q : CircularQueue N) (cell : Int) :
    Call → Option (Event × CircularQueue N × Int)
  | Call.enqueue v =>
    match enqueue N q v with
    | none => none
    | some (ok, q1) => some (⟨Call.enqueue v, ok, cell⟩, q1, cell)
  | Call.dequeue =>
    match dequeue N q cell with
    | none => none
    | some (ok, cell1, q1) => some (⟨Call.dequeue, ok, cell1⟩, q1, cell1)

/-- A finite sequence of calls, made one after the other by a client that uses the same
output cell for all its `dequeue` calls. -/
def run (N : Nat) : CircularQueue N → Int → List Call →
    Option (List Event × CircularQueue N × Int)
  | q, cell, [] => some ([], q, cell)
  | q, cell, c :: rest =>
    match step N q cell c with
    | none => none
    | some (ev, q1, cell1) =>
      match run N q1 cell1 rest with
      | none => none
      | some (evs, q2, cell2) => some (ev :: evs, q2, cell2)

/-- The values accepted by the queue, in order: the arguments of the `enqueue` calls that
returned `true`. -/
def accepted : List Event → List Int
  | [] => []
  | ⟨Call.enqueue v, true, _⟩ :: evs => v :: accepted evs
  | _ :: evs => accepted evs

/-- The values handed out by the queue, in order: the content of the output cell after each
`dequeue` call that returned `true`. -/
def delivered : List Event → List Int
  | [] => []
  | ⟨Call.dequeue, true, x⟩ :: evs => x :: delivered evs
  | _ :: evs => delivered evs

/-- The returned `bool` of every call, in order. -/
def statuses (evs : List Event) : List Bool := evs.map Event.ok

/-- The range predicate on the two indices. -/
def InRange (N : Nat) (q : CircularQueue N) : Prop :=
  0 ≤ q.head ∧ q.head < (N : Int) ∧ 0 ≤ q.tail ∧ q.tail < (N : Int)

instance (N : Nat) (q : CircularQueue N) : Decidable (InRange N q) := by
  unfold InRange; infer_instance

/-- The states a client can reach: `initQueue` on any memory, then any calls of
`initQueue`, `enqueue` and `dequeue`, whatever they return. -/
inductive Reachable (N : Nat) : CircularQueue N → Prop where
  | init (q : CircularQueue N) : Reachable N (initQueue N q)
  | reinit {q : CircularQueue N} : Reachable N q → Reachable N (initQueue N q)
  | enqueue {q q1 : CircularQueue N} {v : Int} {ok : Bool} :
      Reachable N q → enqueue N q v = some (ok, q1) → Reachable N q1
  | dequeue {q q1 : CircularQueue N} {out out1 : Int} {ok : Bool} :
      Reachable N q → dequeue N q out = some (ok, out1, q1) → Reachable N q1

/-! ## Proof devices: the queue as a list -/

/-- The `i`-th index after `h` on the ring of `N` indices (for `h < N`, `i ≤ N`). -/
def wrapIdx (N h i : Nat) : Nat := if h + i < N then h + i else h + i - N

/-- Number of slots between `head` and `tail`, going up and around. -/
def occupancy (N : Nat) (q : CircularQueue N) : Nat :=
  if q.head ≤ q.tail then (q.tail - q.head).toNat else (N - q.head + q.tail).toNat

/-- Slot `i` of the buffer, `0` outside it. -/
def peek (N : Nat) (buffer : Fin N → Int) (i : Nat) : Int :=
  if h : i < N then buffer ⟨i, h⟩ else 0

/-- The values waiting in the queue, oldest first. -/
def contents (N : Nat) (q : CircularQueue N) : List Int :=
  (List.range (occupancy N q)).map fun i => peek N q.buffer (wrapIdx N q.head.toNat i)

/-- One call on a list queue holding at most `cap` values. -/
def listStep (cap : Nat) (l : List Int) (cell : Int) : Call → Event × List Int × Int
  | Call.enqueue v =>
    if l.length = cap then (⟨Call.enqueue v, false, cell⟩, l, cell)
    else (⟨Call.enqueue v, true, cell⟩, l ++ [v], cell)
  | Call.dequeue =>
    match l with
    | [] => (⟨Call.dequeue, false, cell⟩, [], cell)
    | x :: l1 => (⟨Call.dequeue, true, x⟩, l1, x)

/-- A sequence of calls on a list queue. -/
def listRun (cap : Nat) : List Int → Int → List Call → List Event × List Int × Int
  | l, cell, [] => ([], l, cell)
  | l, cell, c :: rest =>
    let r := listStep cap l cell c
    let s := listRun cap r.2.1 r.2.2 rest
    (r.1 :: s.1, s.2.1, s.2.2)

/-! ## Sample states and call sequences -/

/-- A full queue whose `tail` is on the last index: `head = 0`, `tail = 1023`. -/
def fullAtBoundary : CircularQueue QUEUE_SIZE :=
  { buffer := fun i => (i.val : Int), head := 0, tail := 1023 }

/-- A queue with room whose `tail` is on the last index: `head = 5`, `tail = 1023`. -/
def roomAtBoundary : CircularQueue QUEUE_SIZE :=
  { buffer := fun i => (i.val : Int), head := 5, tail := 1023 }

/-- An empty queue away from index `0`: `head = tail = 9`. -/
def emptyAtNine : CircularQueue QUEUE_SIZE :=
  { buffer := fun i => (i.val : Int), head := 9, tail := 9 }

/-- A queue holding three values whose `head` is on the last index. -/
def headAtBoundary : CircularQueue QUEUE_SIZE :=
  { buffer := fun i => (i.val : Int), head := 1023, tail := 2 }

/-- An empty queue on the last index: `head = tail = 1023`. -/
def emptyAtBoundary : CircularQueue QUEUE_SIZE :=
  { buffer := fun i => (i.val : Int), head := 1023, tail := 1023 }

/-- An empty queue on index `0` whose buffer holds other values than the samples above. -/
def emptyAtZero : CircularQueue QUEUE_SIZE :=
  { buffer := fun _ => 0, head := 0, tail := 0 }

/-- The state after `initQueue` on `emptyAtNine` and then `enqueue` of `7`. -/
def afterOneEnqueue : CircularQueue QUEUE_SIZE :=
  { buffer := Function.update (fun i => (i.val : Int)) ⟨0, by decide⟩ 7, head := 0, tail := 1 }

/-- Calls that fill nothing but move both indices: two values in, three attempts out. -/
def shortCalls : List Call :=
  [Call.enqueue 1, Call.enqueue 2, Call.dequeue, Call.dequeue, Call.dequeue]

/-- The calls of the scenario with four slots. -/
def scenarioCalls : List Call :=
  [Call.enqueue 10, Call.enqueue 20, Call.enqueue 30, Call.enqueue 40, Call.dequeue,
   Call.enqueue 40, Call.dequeue, Call.dequeue, Call.dequeue, Call.dequeue]

/-- What the client of the scenario observes, its output cell holding `cell` at the start. -/
def scenarioEvents (cell : Int) : List Event :=
  [⟨Call.enqueue 10, true, cell⟩, ⟨Call.enqueue 20, true, cell⟩, ⟨Call.enqueue 30, true, cell⟩,
   ⟨Call.enqueue 40, false, cell⟩, ⟨Call.dequeue, true, 10⟩, ⟨Call.enqueue 40, true, 10⟩,
   ⟨Call.dequeue, true, 20⟩, ⟨Call.dequeue, true, 30⟩, ⟨Call.dequeue, true, 40⟩,
   ⟨Call.dequeue, false, 40⟩]

/-- A state no call sequence reaches: `tail` is one past the last index of `buffer`. -/
def tailPastEnd : CircularQueue QUEUE_SIZE :=
  { buffer := fun _ => 0, head := 5, tail := 1024 }

/-- A state no call sequence reaches: `head` is one past the last index of `buffer`. -/
def headPastEnd : CircularQueue QUEUE_SIZE :=
  { buffer := fun _ => 0, head := 1024, tail := 5 }

/-- Calls that bring `tail` to the last index with room left: `QUEUE_SIZE - 1` values in,
one value out. -/
def lastSlotCalls : List Call :=
  List.replicate 1023 (Call.enqueue 1) ++ [Call.dequeue]

/-! ## Two threads: one step per access to shared memory

The atomics of `circular_queue.c` are the default, sequentially consistent ones, so a run of
a producer thread and a consumer thread is an interleaving of their accesses to `head`,
`tail` and `buffer`. Each thread is cut at these accesses: a step is one access, with the
local computation that follows it. A schedule says whose turn each step is. -/

/-- Where the producer stands inside its current call of `enqueue`, with the locals `head`
and `tail` of the call once they are loaded. -/
inductive ProducerPc where
  /-- Before `int head = atomic_load(&q->head)`. -/
  | loadHead
  /-- Before `int tail = atomic_load(&q->tail)` and the test for a full queue. -/
  | loadTail (head : Int)
  /-- Before `q->buffer[tail] = value`. -/
  | writeSlot (head tail : Int)
  /-- Before `atomic_store(&q->tail, (tail + 1) % QUEUE_SIZE)`. -/
  | storeTail (head tail : Int)
  deriving DecidableEq, Repr

/-- Where the consumer stands inside its current call of `dequeue`, with the locals `head`
and `tail` of the call once they are loaded. -/
inductive ConsumerPc where
  /-- Before `int head = atomic_load(&q->head)`. -/
  | loadHead
  /-- Before `int tail = atomic_load(&q->tail)` and the test for an empty queue. -/
  | loadTail (head : Int)
  /-- Before `*value = q->buffer[head]`. -/
  | readSlot (head tail : Int)
  /-- Before `atomic_store(&q->head, (head + 1) % QUEUE_SIZE)`. -/
  | storeHead (head tail : Int)
  deriving DecidableEq, Repr

/-- The shared queue and the two threads. The producer calls `enqueue` on the first value
of `toSend` until the call returns `true`, then goes on with the next value. The consumer
calls `dequeue` with the address of `cell` until the call returns `true`, then appends the
content of `cell` to `received`. -/
structure System (N : Nat) where
  queue : CircularQueue N
  producer : ProducerPc
  toSend : List Int
  consumer : ConsumerPc
  cell : Int
  received : List Int

/-- One step of the producer: the next access of its call of `enqueue`. A producer with
nothing left to send does nothing. The result is `none` on undefined behaviour. -/
def producerStep (N : Nat) (s : System N) : Option (System N) :=
  match s.toSend with
  | [] => some s
  | value :: rest =>
    match s.producer with
    | ProducerPc.loadHead =>
      some { s with producer := ProducerPc.loadTail s.queue.head }
    | ProducerPc.loadTail head =>
      let tail := s.queue.tail
      if INT_MAX < tail + 1 then none
      else if Int.tmod (tail + 1) (N : Int) = head then
        some { s with producer := ProducerPc.loadHead }
      else some { s with producer := ProducerPc.writeSlot head tail }
    | ProducerPc.writeSlot head tail =>
      if h : 0 ≤ tail ∧ tail < (N : Int) then
        some { s with
          queue :=
            { buffer := Function.update s.queue.buffer ⟨tail.toNat, by omega⟩ value
              head := s.queue.head
              tail := s.queue.tail }
          producer := ProducerPc.storeTail head tail }
      else none
    | ProducerPc.storeTail _ tail =>
      if INT_MAX < tail + 1 then none
      else
        some { s with
          queue :=
            { buffer := s.queue.buffer
              head := s.queue.head
              tail := Int.tmod (tail + 1) (N : Int) }
          producer := ProducerPc.loadHead
          toSend := rest }

/-- One step of the consumer: the next access of its call of `dequeue`. A consumer that has
received `total` values does nothing. The result is `none` on undefined behaviour. -/
def consumerStep (N : Nat) (total : Nat) (s : System N) : Option (System N) :=
  if s.received.length = total then some s
  else
    match s.consumer with
    | ConsumerPc.loadHead =>
      some { s with consumer := ConsumerPc.loadTail s.queue.head }
    | ConsumerPc.loadTail head =>
      let tail := s.queue.tail
      if head = tail then some { s with consumer := ConsumerPc.loadHead }
      else some { s with consumer := ConsumerPc.readSlot head tail }
    | ConsumerPc.readSlot head tail =>
      if h : 0 ≤ head ∧ head < (N : Int) then
        some { s with
          cell := s.queue.buffer ⟨head.toNat, by omega⟩
          consumer := ConsumerPc.storeHead head tail }
      else none
    | ConsumerPc.storeHead head _ =>
      if INT_MAX < head + 1 then none
      else
        some { s with
          queue :=
            { buffer := s.queue.buffer
              head := Int.tmod (head + 1) (N : Int)
              tail := s.queue.tail }
          consumer := ConsumerPc.loadHead
          received := s.received ++ [s.cell] }

/-- One step of the thread whose turn it is: the producer on `true`, the consumer on
`false`. -/
def threadStep (N : Nat) (total : Nat) (s : System N) (producerTurn : Bool) :
    Option (System N) :=
  if producerTurn then producerStep N s else consumerStep N total s

/-- The steps of a schedule, one after the other. -/
def runSchedule (N : Nat) (total : Nat) : System N → List Bool → Option (System N)
  | s, [] => some s
  | s, turn :: rest =>
    match threadStep N total s turn with
    | none => none
    | some s1 => runSchedule N total s1 rest

/-- The two threads about to make their first call, on the queue `q`. -/
def start (N : Nat) (q : CircularQueue N) (cell : Int) (sent : List Int) : System N :=
  { queue := q
    producer := ProducerPc.loadHead
    toSend := sent
    consumer := ConsumerPc.loadHead
    cell := cell
    received := [] }

/-- Number of steps from index `a` up to index `b`, going up and around the ring. -/
def ringDist (N : Nat) (a b : Int) : Nat :=
  if a ≤ b then (b - a).toNat else ((N : Int) - a + b).toNat

/-- What the locals of the producer say about the shared state. -/
def ProducerOk (N : Nat) (s : System N) : Prop :=
  match s.producer with
  | ProducerPc.loadHead => True
  | ProducerPc.loadTail head =>
    0 ≤ head ∧ head < (N : Int)
      ∧ ringDist N s.queue.head s.queue.tail ≤ ringDist N head s.queue.tail
  | ProducerPc.writeSlot _ tail =>
    tail = s.queue.tail ∧ ringDist N s.queue.head s.queue.tail + 1 < N
  | ProducerPc.storeTail _ tail =>
    tail = s.queue.tail ∧ ringDist N s.queue.head s.queue.tail + 1 < N
      ∧ ∀ value rest, s.toSend = value :: rest → peek N s.queue.buffer tail.toNat = value

/-- What the locals of the consumer say about the shared state. -/
def ConsumerOk (N : Nat) (s : System N) : Prop :=
  match s.consumer with
  | ConsumerPc.loadHead => True
  | ConsumerPc.loadTail head => head = s.queue.head
  | ConsumerPc.readSlot head _ =>
    head = s.queue.head ∧ 1 ≤ ringDist N s.queue.head s.queue.tail
  | ConsumerPc.storeHead head _ =>
    head = s.queue.head ∧ 1 ≤ ringDist N s.queue.head s.queue.tail
      ∧ s.cell = peek N s.queue.buffer head.toNat

/-- The invariant of the two threads: the indices are in range, the values sent are the
values received, then the values waiting in the queue, then the values still to send, and
the locals of both threads agree with the shared state. -/
def SystemInv (N : Nat) (sent : List Int) (s : System N) : Prop :=
  InRange N s.queue
    ∧ sent = s.received ++ contents N s.queue ++ s.toSend
    ∧ ProducerOk N s ∧ ConsumerOk N s

/-- A schedule in which the producer sends `1, 2, 3` before the consumer starts. -/
def sampleSchedule : List Bool :=
  List.replicate 12 true ++ List.replicate 12 false

end CQueue

/-! ## The variable store of `SwiftBenchmarks/CVariableStore/c_variable_store.c` -/

namespace CVariableStore

/-- The struct `VariableStore`. -/
structure VariableStore where
  value : Int
  deriving DecidableEq, Repr

/-- The function `init_variable_store`. -/
def init_variable_store (store : VariableStore) : VariableStore :=
  { store with value := 0 }

/-- The function `set_variable`. -/
def set_variable (store : VariableStore) (new_value : Int) : VariableStore :=
  { store with value := new_value }

/-- The function `get_variable`: the returned `int`, and the store after the call. -/
def get_variable (store : VariableStore) : Int × VariableStore :=
  (store.value, store)

/-- A call made by a client of the store after `init_variable_store`. -/
inductive StoreCall where
  | set (new_value : Int)
  | get
  deriving DecidableEq, Repr

/-- A finite sequence of calls on the store, one after the other. -/
def runStore : VariableStore → List StoreCall → VariableStore
  | store, [] => store
  | store, StoreCall.set v :: rest => runStore (set_variable store v) rest
  | store, StoreCall.get :: rest => runStore (get_variable store).2 rest

/-- The arguments of the `set_variable` calls of a sequence, in order. -/
def setArguments : List StoreCall → List Int
  | [] => []
  | StoreCall.set v :: rest => v :: setArguments rest
  | StoreCall.get :: rest => setArguments rest

end CVariableStore

/-! ## The conversions of `CSources/PointerUtilities/include/pointer_utilities_bridge.h` -/

namespace PointerUtilities

/-- Conversion of an unsigned value to an unsigned integer type of `bits` bits: the value
modulo `2 ^ bits` (zero-extension when it fits, truncation when it does not). -/
def toUnsigned (bits : Nat) (x : Nat) : Nat := x % 2 ^ bits

/-- The function `pointerToUInt64`: `(uint64_t)(uintptr_t)ptr`. A pointer is an unsigned
integer of `ptrBits` bits, the width of `uintptr_t` on the platform. -/
def pointerToUInt64 (ptrBits : Nat) (ptr : Nat) : Nat :=
  toUnsigned 64 (toUnsigned ptrBits ptr)

/-- The function `uint64ToPointer`: `(void *)(uintptr_t)value`. -/
def uint64ToPointer (ptrBits : Nat) (value : Nat) : Nat :=
  toUnsigned ptrBits value

end PointerUtilities

namespace CQueue

/-! ## Index arithmetic -/

theorem tmod_succ_of_inRange (N : Nat) (t : Int) (h0 : 0 ≤ t) (h1 : t < (N : Int)) :
    Int.tmod (t + 1) (N : Int) = if t + 1 = (N : Int) then 0 else t + 1 := by
  rw [Int.tmod_eq_emod (by omega) (by omega)]
  split
  · next h => rw [h]; exact Int.emod_self
  · next h => exact Int.emod_eq_of_lt (by omega) (by omega)

theorem full_iff_occupancy (N : Nat) (q : CircularQueue N) (hr : InRange N q) :
    Int.tmod (q.tail + 1) (N : Int) = q.head ↔ occupancy N q = N - 1 := by
  obtain ⟨h0, h1, t0, t1⟩ := hr
  rw [tmod_succ_of_inRange N q.tail t0 t1]
  unfold occupancy
  split <;> split <;> omega

theorem empty_iff_occupancy (N : Nat) (q : CircularQueue N) (hr : InRange N q) :
    q.head = q.tail ↔ occupancy N q = 0 := by
  obtain ⟨h0, h1, t0, t1⟩ := hr
  unfold occupancy
  split <;> omega

theorem occupancy_lt (N : Nat) (q : CircularQueue N) (hr : InRange N q) :
    occupancy N q < N := by
  obtain ⟨h0, h1, t0, t1⟩ := hr
  unfold occupancy
  split <;> omega

theorem length_contents (N : Nat) (q : CircularQueue N) :
    (contents N q).length = occupancy N q := by
  simp [contents]

theorem peek_update (N : Nat) (b : Fin N → Int) (t : Nat) (ht : t < N) (v : Int) (i : Nat) :
    peek N (Function.update b ⟨t, ht⟩ v) i = if i = t then v else peek N b i := by
  unfold peek
  by_cases hi : i < N
  · by_cases e : i = t
    · subst e; simp [hi]
    · have : (⟨i, hi⟩ : Fin N) ≠ ⟨t, ht⟩ := fun h => e (Fin.mk.inj h)
      simp [hi, e, Function.update_noteq this]
  · have : i ≠ t := by omega
    simp [hi, this]

/-! ## One call, on a state whose indices are in range -/

theorem enqueue_full_eq (N : Nat) (hN : (N : Int) ≤ INT_MAX) (q : CircularQueue N)
    (hr : InRange N q) (v : Int) (hfull : Int.tmod (q.tail + 1) (N : Int) = q.head) :
    enqueue N q v = some (false, q) := by
  obtain ⟨h0, h1, t0, t1⟩ := hr
  have hov : ¬ INT_MAX < q.tail + 1 := by omega
  simp only [enqueue, hov, hfull, if_true, if_false]

theorem enqueue_free_eq (N : Nat) (hN : (N : Int) ≤ INT_MAX) (q : CircularQueue N)
    (hr : InRange N q) (v : Int) (hfree : Int.tmod (q.tail + 1) (N : Int) ≠ q.head) :
    enqueue N q v = some (true,
      { buffer := Function.update q.buffer ⟨q.tail.toNat, by have := hr.2.2; omega⟩ v
        head := q.head
        tail := Int.tmod (q.tail + 1) (N : Int) }) := by
  obtain ⟨h0, h1, t0, t1⟩ := hr
  have hov : ¬ INT_MAX < q.tail + 1 := by omega
  have hin : 0 ≤ q.tail ∧ q.tail < (N : Int) := ⟨t0, t1⟩
  simp only [enqueue, hov, hfree, hin, if_false, dif_pos, and_self]

theorem dequeue_empty_eq (N : Nat) (q : CircularQueue N) (out : Int) (he : q.head = q.tail) :
    dequeue N q out = some (false, out, q) := by
  simp only [dequeue, he, if_true]

theorem dequeue_nonempty_eq (N : Nat) (hN : (N : Int) ≤ INT_MAX) (q : CircularQueue N)
    (hr : InRange N q) (out : Int) (hne : q.head ≠ q.tail) :
    dequeue N q out = some (true, q.buffer ⟨q.head.toNat, by have := hr.1; have := hr.2.1; omega⟩,
      { buffer := q.buffer
        head := Int.tmod (q.head + 1) (N : Int)
        tail := q.tail }) := by
  obtain ⟨h0, h1, t0, t1⟩ := hr
  have hov : ¬ INT_MAX < q.head + 1 := by omega
  have hin : 0 ≤ q.head ∧ q.head < (N : Int) := ⟨h0, h1⟩
  simp only [dequeue, hov, hne, hin, if_false, dif_pos, and_self]

theorem inRange_initQueue (N : Nat) (hN : 0 < N) (q : CircularQueue N) :
    InRange N (initQueue N q) := by
  simp only [InRange, initQueue]; omega

theorem inRange_enqueue (N : Nat) (q q1 : CircularQueue N) (v : Int) (ok : Bool)
    (hr : InRange N q) (h : enqueue N q v = some (ok, q1)) : InRange N q1 := by
  obtain ⟨h0, h1, t0, t1⟩ := hr
  have hm := tmod_succ_of_inRange N q.tail t0 t1
  unfold enqueue at h
  simp only at h
  split at h
  · exact absurd h (by simp)
  · split at h
    · simp only [Option.some.injEq, Prod.mk.injEq] at h
      rw [← h.2]; exact ⟨h0, h1, t0, t1⟩
    · split at h
      · simp only [Option.some.injEq, Prod.mk.injEq] at h
        rw [← h.2]
        refine ⟨h0, h1, ?_, ?_⟩ <;> simp only [hm] <;> split <;> omega
      · exact absurd h (by simp)

theorem inRange_dequeue (N : Nat) (q q1 : CircularQueue N) (out out1 : Int) (ok : Bool)
    (hr : InRange N q) (h : dequeue N q out = some (ok, out1, q1)) : InRange N q1 := by
  obtain ⟨h0, h1, t0, t1⟩ := hr
  have hm := tmod_succ_of_inRange N q.head h0 h1
  unfold dequeue at h
  simp only at h
  split at h
  · simp only [Option.some.injEq, Prod.mk.injEq] at h
    rw [← h.2.2]; exact ⟨h0, h1, t0, t1⟩
  · split at h
    · split at h
      · exact absurd h (by simp)
      · simp only [Option.some.injEq, Prod.mk.injEq] at h
        rw [← h.2.2]
        refine ⟨?_, ?_, t0, t1⟩ <;> simp only [hm] <;> split <;> omega
    · exact absurd h (by simp)

/-! ## The queue refines a list -/

theorem contents_push (N : Nat) (b : Fin N → Int) (hd tl : Int)
    (hr : InRange N ⟨b, hd, tl⟩) (hfree : Int.tmod (tl + 1) (N : Int) ≠ hd) (v : Int)
    (ht : tl.toNat < N) :
    contents N ⟨Function.update b ⟨tl.toNat, ht⟩ v, hd, Int.tmod (tl + 1) (N : Int)⟩
      = contents N ⟨b, hd, tl⟩ ++ [v] := by
  obtain ⟨h0, h1, t0, t1⟩ := hr
  simp only at h0 h1 t0 t1
  have hm := tmod_succ_of_inRange N tl t0 t1
  rw [hm] at hfree
  have hocc : occupancy N ⟨Function.update b ⟨tl.toNat, ht⟩ v, hd, Int.tmod (tl + 1) (N : Int)⟩
      = occupancy N ⟨b, hd, tl⟩ + 1 := by
    simp only [occupancy, hm]
    split_ifs at hfree ⊢ <;> omega
  simp only [contents, hocc, List.range_succ, List.map_append, List.map_cons, List.map_nil]
  congr 1
  · apply List.map_congr_left
    intro i hi
    rw [List.mem_range] at hi
    rw [peek_update]
    have hne : wrapIdx N hd.toNat i ≠ tl.toNat := by
      simp only [occupancy] at hi
      unfold wrapIdx
      split_ifs at hi ⊢ <;> omega
    simp only [hne, if_false]
  · rw [peek_update]
    have he : wrapIdx N hd.toNat (occupancy N ⟨b, hd, tl⟩) = tl.toNat := by
      simp only [occupancy]
      unfold wrapIdx
      split_ifs <;> omega
    simp only [he, if_true]

theorem contents_pop (N : Nat) (b : Fin N → Int) (hd tl : Int)
    (hr : InRange N ⟨b, hd, tl⟩) (hne : hd ≠ tl) (hh : hd.toNat < N) :
    contents N ⟨b, hd, tl⟩
      = b ⟨hd.toNat, hh⟩ :: contents N ⟨b, Int.tmod (hd + 1) (N : Int), tl⟩ := by
  obtain ⟨h0, h1, t0, t1⟩ := hr
  simp only at h0 h1 t0 t1
  have hm := tmod_succ_of_inRange N hd h0 h1
  have hocc : occupancy N ⟨b, hd, tl⟩
      = occupancy N ⟨b, Int.tmod (hd + 1) (N : Int), tl⟩ + 1 := by
    simp only [occupancy, hm]
    split_ifs <;> omega
  simp only [contents]
  rw [hocc, List.range_succ_eq_map, List.map_cons, List.map_map]
  congr 1
  · have : wrapIdx N hd.toNat 0 = hd.toNat := by unfold wrapIdx; split_ifs <;> omega
    rw [this]; unfold peek; simp only [hh, dif_pos]
  · apply List.map_congr_left
    intro i hi
    rw [List.mem_range] at hi
    have : wrapIdx N hd.toNat (i + 1) = wrapIdx N (Int.tmod (hd + 1) (N : Int)).toNat i := by
      simp only [occupancy, hm] at hi
      rw [hm]
      unfold wrapIdx
      split_ifs at hi ⊢ <;> omega
    simp only [Function.comp, Nat.succ_eq_add_one, this]

theorem step_refines (N : Nat) (hN : (N : Int) ≤ INT_MAX) (q : CircularQueue N)
    (hr : InRange N q) (cell : Int) (c : Call) :
    ∃ q1, step N q cell c = some ((listStep (N - 1) (contents N q) cell c).1, q1,
        (listStep (N - 1) (contents N q) cell c).2.2)
      ∧ InRange N q1 ∧ contents N q1 = (listStep (N - 1) (contents N q) cell c).2.1 := by
  cases c with
  | enqueue v =>
    by_cases hfull : Int.tmod (q.tail + 1) (N : Int) = q.head
    · have hlen : (contents N q).length = N - 1 := by
        rw [length_contents]; exact (full_iff_occupancy N q hr).1 hfull
      refine ⟨q, ?_, hr, ?_⟩
      · simp only [step, enqueue_full_eq N hN q hr v hfull, listStep, hlen, if_true]
      · simp only [listStep, hlen, if_true]
    · have hlen : (contents N q).length ≠ N - 1 := by
        rw [length_contents]; exact fun h => hfull ((full_iff_occupancy N q hr).2 h)
      have hstep := enqueue_free_eq N hN q hr v hfull
      refine ⟨_, ?_, inRange_enqueue N q _ v true hr hstep, ?_⟩
      · simp only [step, hstep, listStep, hlen, if_false]
      · simp only [listStep, hlen, if_false]
        obtain ⟨b, hd, tl⟩ := q
        exact contents_push N b hd tl hr hfull v _
  | dequeue =>
    by_cases he : q.head = q.tail
    · have hnil : contents N q = [] := by
        apply List.length_eq_zero.1
        rw [length_contents]; exact (empty_iff_occupancy N q hr).1 he
      refine ⟨q, ?_, hr, ?_⟩
      · simp only [step, dequeue_empty_eq N q cell he, listStep, hnil]
      · simp only [listStep, hnil]
    · have hstep := dequeue_nonempty_eq N hN q hr cell he
      have hcons : contents N q = q.buffer ⟨q.head.toNat, by have := hr.1; have := hr.2.1; omega⟩
          :: contents N ⟨q.buffer, Int.tmod (q.head + 1) (N : Int), q.tail⟩ := by
        obtain ⟨b, hd, tl⟩ := q
        exact contents_pop N b hd tl hr he _
      refine ⟨_, ?_, inRange_dequeue N q _ cell _ true hr hstep, ?_⟩
      · simp only [step, hstep, listStep, hcons]
      · simp only [listStep, hcons]

theorem run_refines (N : Nat) (hN : (N : Int) ≤ INT_MAX) (calls : List Call) :
    ∀ (q : CircularQueue N) (cell : Int), InRange N q →
      ∃ q1, run N q cell calls = some ((listRun (N - 1) (contents N q) cell calls).1, q1,
          (listRun (N - 1) (contents N q) cell calls).2.2)
        ∧ InRange N q1 ∧ contents N q1 = (listRun (N - 1) (contents N q) cell calls).2.1 := by
  induction calls with
  | nil => intro q cell hr; exact ⟨q, rfl, hr, rfl⟩
  | cons c rest ih =>
    intro q cell hr
    obtain ⟨q1, hs, hr1, hc1⟩ := step_refines N hN q hr cell c
    obtain ⟨q2, hs2, hr2, hc2⟩ := ih q1 (listStep (N - 1) (contents N q) cell c).2.2 hr1
    refine ⟨q2, ?_, hr2, ?_⟩
    · simp only [run, hs, hs2, listRun, hc1]
    · simp only [listRun, hc2, hc1]

/-! ## Facts about the list queue -/

theorem listRun_fifo (cap : Nat) (calls : List Call) :
    ∀ (l : List Int) (cell : Int),
      l ++ accepted (listRun cap l cell calls).1
        = delivered (listRun cap l cell calls).1 ++ (listRun cap l cell calls).2.1 := by
  induction calls with
  | nil => intro l cell; simp [listRun, accepted, delivered]
  | cons c rest ih =>
    intro l cell
    cases c with
    | enqueue v =>
      by_cases hlen : l.length = cap
      · have := ih l cell
        simpa [listRun, listStep, hlen, accepted, delivered] using this
      · have := ih (l ++ [v]) cell
        simpa [listRun, listStep, hlen, accepted, delivered] using this
    | dequeue =>
      cases l with
      | nil =>
        have := ih [] cell
        simpa [listRun, listStep, accepted, delivered] using this
      | cons x l1 =>
        have := ih l1 x
        simpa [listRun, listStep, accepted, delivered] using this

theorem listRun_enqueues (cap : Nat) (vs : List Int) :
    ∀ (l : List Int) (cell : Int), l.length ≤ cap →
      statuses (listRun cap l cell (vs.map Call.enqueue)).1
        = (List.range vs.length).map fun i => decide (l.length + i < cap) := by
  induction vs with
  | nil => intro l cell _; simp [listRun, statuses]
  | cons v vs ih =>
    intro l cell hle
    have hrange : List.range (v :: vs).length = 0 :: (List.range vs.length).map Nat.succ := by
      rw [List.length_cons, List.range_succ_eq_map]
    rw [hrange]
    simp only [List.map_cons, List.map_map]
    by_cases hlen : l.length = cap
    · have := ih l cell hle
      simp only [statuses] at this
      simp only [listRun, listStep, hlen, if_true, statuses, List.map_cons, this]
      simp
    · have hlt : l.length < cap := by omega
      have := ih (l ++ [v]) cell (by simp only [List.length_append, List.length_singleton]; omega)
      simp only [statuses] at this
      simp only [listRun, listStep, hlen, if_false, statuses, List.map_cons, this]
      simp only [List.length_append, List.length_singleton, Nat.add_zero, hlt, decide_True,
        Nat.add_assoc, Nat.add_comm 1]
      rfl

theorem statuses_fill (n : Nat) :
    ((List.range (n + 1)).map fun i => decide (0 + i < n)) = List.replicate n true ++ [false] := by
  rw [List.range_succ, List.map_append]
  congr 1
  · rw [List.eq_replicate_iff]
    refine ⟨by simp, ?_⟩
    intro b hb
    simp only [List.mem_map, List.mem_range] at hb
    obtain ⟨i, hi, rfl⟩ := hb
    simp [hi]
  · simp

/-! ## The program constant -/

theorem queueSize_le_intMax : ((QUEUE_SIZE : Nat) : Int) ≤ INT_MAX := by decide

theorem contents_of_head_eq_tail (N : Nat) (q : CircularQueue N) (he : q.head = q.tail) :
    contents N q = [] := by
  apply List.length_eq_zero.1
  rw [length_contents]
  unfold occupancy
  rw [he]
  simp

theorem run_fill (N : Nat) (hN0 : 0 < N) (hN : (N : Int) ≤ INT_MAX) (q0 : CircularQueue N)
    (cell : Int) (v : Nat → Int) :
    ∃ evs q c,
      run N (initQueue N q0) cell ((List.range N).map fun k => Call.enqueue (v k))
        = some (evs, q, c) ∧
      statuses evs = List.replicate (N - 1) true ++ [false] := by
  have hr := inRange_initQueue N hN0 q0
  have hcalls : ((List.range N).map fun k => Call.enqueue (v k))
      = ((List.range N).map v).map Call.enqueue := by
    rw [List.map_map]; rfl
  obtain ⟨q1, hrun, _, _⟩ := run_refines N hN (((List.range N).map v).map Call.enqueue) _ cell hr
  rw [contents_of_head_eq_tail N (initQueue N q0) rfl] at hrun
  rw [hcalls]
  refine ⟨_, q1, _, hrun, ?_⟩
  rw [listRun_enqueues (N - 1) ((List.range N).map v) [] cell (Nat.zero_le _)]
  rw [List.length_map, List.length_range]
  obtain ⟨n, rfl⟩ : ∃ n, N = n + 1 := ⟨N - 1, by omega⟩
  exact statuses_fill n

/-! ## The claims -/

/-- C1 (FIFO). Any finite sequence of `enqueue` and `dequeue` calls on a queue that
`initQueue` has just initialised runs to its end, and the values handed out by the successful
`dequeue` calls are, in order, a prefix of the values taken by the successful `enqueue`
calls: the `k`-th successful `dequeue` returns the argument of the `k`-th successful
`enqueue`. -/
theorem fifo_order (q0 : CircularQueue QUEUE_SIZE) (cell : Int) (calls : List Call) :
    ∃ evs q c, run QUEUE_SIZE (initQueue QUEUE_SIZE q0) cell calls = some (evs, q, c) ∧
      delivered evs <+: accepted evs ∧
      ∀ k : Fin (delivered evs).length, (accepted evs)[k.val]? = some ((delivered evs).get k) := by
  have hr := inRange_initQueue QUEUE_SIZE (by decide) q0
  obtain ⟨q1, hrun, _, hc⟩ := run_refines QUEUE_SIZE queueSize_le_intMax calls _ cell hr
  have hfifo := listRun_fifo (QUEUE_SIZE - 1) calls
    (contents QUEUE_SIZE (initQueue QUEUE_SIZE q0)) cell
  rw [contents_of_head_eq_tail QUEUE_SIZE (initQueue QUEUE_SIZE q0) rfl] at hfifo hrun hc
  rw [List.nil_append] at hfifo
  refine ⟨_, q1, _, hrun, ⟨_, hfifo.symm⟩, ?_⟩
  intro k
  rw [hfifo, List.getElem?_append_left k.isLt, List.getElem?_eq_getElem k.isLt]
  rfl

/-- C2 (capacity). On a queue that `initQueue` has just initialised, and with no `dequeue`
in between, `QUEUE_SIZE` calls of `enqueue` with any values `v 0, v 1, ...` return `true`
for the first `QUEUE_SIZE - 1` of them and `false` for the last one. -/
theorem capacity_is_size_minus_one (q0 : CircularQueue QUEUE_SIZE) (cell : Int) (v : Nat → Int) :
    ∃ evs q c,
      run QUEUE_SIZE (initQueue QUEUE_SIZE q0) cell
          ((List.range QUEUE_SIZE).map fun k => Call.enqueue (v k)) = some (evs, q, c) ∧
      statuses evs = List.replicate (QUEUE_SIZE - 1) true ++ [false] := by
  exact run_fill QUEUE_SIZE (by decide) queueSize_le_intMax q0 cell v

/-- C3 (emptiness after reset). Whatever the state of the queue, `dequeue` right after
`initQueue` returns `false`; it leaves the caller's cell and the queue as they were. -/
theorem dequeue_after_initQueue (q : CircularQueue QUEUE_SIZE) (out : Int) :
    dequeue QUEUE_SIZE (initQueue QUEUE_SIZE q) out
      = some (false, out, initQueue QUEUE_SIZE q) :=
  dequeue_empty_eq QUEUE_SIZE (initQueue QUEUE_SIZE q) out rfl

/-- C4 (enqueue on a full queue). With both indices in `[0, QUEUE_SIZE)` and
`(tail + 1) mod QUEUE_SIZE = head`, `enqueue` returns `false` and the queue after the call
is the queue before it: same `head`, same `tail`, same buffer. -/
theorem enqueue_full_rejected (q : CircularQueue QUEUE_SIZE) (v : Int)
    (h0 : 0 ≤ q.head) (h1 : q.head < (QUEUE_SIZE : Int))
    (t0 : 0 ≤ q.tail) (t1 : q.tail < (QUEUE_SIZE : Int))
    (hfull : (q.tail + 1) % (QUEUE_SIZE : Int) = q.head) :
    enqueue QUEUE_SIZE q v = some (false, q) := by
  apply enqueue_full_eq QUEUE_SIZE queueSize_le_intMax q ⟨h0, h1, t0, t1⟩ v
  rw [Int.tmod_eq_emod (by omega) (by omega)]
  exact hfull

theorem enqueue_full_rejected_witness :
    (0 ≤ fullAtBoundary.head ∧ fullAtBoundary.head < (QUEUE_SIZE : Int)
      ∧ 0 ≤ fullAtBoundary.tail ∧ fullAtBoundary.tail < (QUEUE_SIZE : Int)
      ∧ (fullAtBoundary.tail + 1) % (QUEUE_SIZE : Int) = fullAtBoundary.head)
    ∧ enqueue QUEUE_SIZE fullAtBoundary 7 = some (false, fullAtBoundary) :=
  ⟨by decide, enqueue_full_rejected fullAtBoundary 7 (by decide) (by decide) (by decide)
    (by decide) (by decide)⟩

/-- C5 (enqueue on a queue with room). With both indices in `[0, QUEUE_SIZE)` and
`(tail + 1) mod QUEUE_SIZE ≠ head`, `enqueue` returns `true`, the slot of the old `tail`
holds the value afterwards, and the new `tail` is `(old tail + 1) mod QUEUE_SIZE`. -/
theorem enqueue_room_accepted (q : CircularQueue QUEUE_SIZE) (v : Int)
    (h0 : 0 ≤ q.head) (h1 : q.head < (QUEUE_SIZE : Int))
    (t0 : 0 ≤ q.tail) (t1 : q.tail < (QUEUE_SIZE : Int))
    (hroom : (q.tail + 1) % (QUEUE_SIZE : Int) ≠ q.head) :
    ∃ q1, enqueue QUEUE_SIZE q v = some (true, q1)
      ∧ q1.buffer ⟨q.tail.toNat, by omega⟩ = v
      ∧ q1.tail = (q.tail + 1) % (QUEUE_SIZE : Int) := by
  have hmod : Int.tmod (q.tail + 1) (QUEUE_SIZE : Int) = (q.tail + 1) % (QUEUE_SIZE : Int) :=
    Int.tmod_eq_emod (by omega) (by omega)
  refine ⟨_, enqueue_free_eq QUEUE_SIZE queueSize_le_intMax q ⟨h0, h1, t0, t1⟩ v
    (by rw [hmod]; exact hroom), ?_, hmod⟩
  simp only [Function.update_same]

theorem enqueue_room_accepted_witness :
    (0 ≤ roomAtBoundary.head ∧ roomAtBoundary.head < (QUEUE_SIZE : Int)
      ∧ 0 ≤ roomAtBoundary.tail ∧ roomAtBoundary.tail < (QUEUE_SIZE : Int)
      ∧ (roomAtBoundary.tail + 1) % (QUEUE_SIZE : Int) ≠ roomAtBoundary.head)
    ∧ ∃ q1, enqueue QUEUE_SIZE roomAtBoundary 7 = some (true, q1)
      ∧ q1.buffer ⟨1023, by decide⟩ = 7 ∧ q1.tail = 0 :=
  ⟨by decide, enqueue_room_accepted roomAtBoundary 7 (by decide) (by decide) (by decide)
    (by decide) (by decide)⟩

/-- C6 (dequeue on an empty queue). In every state with `head = tail`, `dequeue` returns
`false`, the queue after the call is the queue before it, and the caller's output cell
holds after the call what it held before. -/
theorem dequeue_empty_rejected (q : CircularQueue QUEUE_SIZE) (out : Int)
    (he : q.head = q.tail) :
    dequeue QUEUE_SIZE q out = some (false, out, q) :=
  dequeue_empty_eq QUEUE_SIZE q out he

theorem dequeue_empty_rejected_witness :
    emptyAtNine.head = emptyAtNine.tail
    ∧ dequeue QUEUE_SIZE emptyAtNine 77 = some (false, 77, emptyAtNine) :=
  ⟨by decide, dequeue_empty_rejected emptyAtNine 77 (by decide)⟩

/-- C7 (dequeue on a non-empty queue). With both indices in `[0, QUEUE_SIZE)` and
`head ≠ tail`, `dequeue` returns `true`, the caller's output cell holds the slot of the old
`head` afterwards, and the new `head` is `(old head + 1) mod QUEUE_SIZE`. -/
theorem dequeue_nonempty_delivers (q : CircularQueue QUEUE_SIZE) (out : Int)
    (h0 : 0 ≤ q.head) (h1 : q.head < (QUEUE_SIZE : Int))
    (t0 : 0 ≤ q.tail) (t1 : q.tail < (QUEUE_SIZE : Int))
    (hne : q.head ≠ q.tail) :
    ∃ q1, dequeue QUEUE_SIZE q out = some (true, q.buffer ⟨q.head.toNat, by omega⟩, q1)
      ∧ q1.head = (q.head + 1) % (QUEUE_SIZE : Int) :=
  ⟨_, dequeue_nonempty_eq QUEUE_SIZE queueSize_le_intMax q ⟨h0, h1, t0, t1⟩ out hne,
    Int.tmod_eq_emod (by omega) (by omega)⟩

theorem dequeue_nonempty_delivers_witness :
    (0 ≤ headAtBoundary.head ∧ headAtBoundary.head < (QUEUE_SIZE : Int)
      ∧ 0 ≤ headAtBoundary.tail ∧ headAtBoundary.tail < (QUEUE_SIZE : Int)
      ∧ headAtBoundary.head ≠ headAtBoundary.tail)
    ∧ ∃ q1, dequeue QUEUE_SIZE headAtBoundary 77 = some (true, 1023, q1) ∧ q1.head = 0 :=
  ⟨by decide, dequeue_nonempty_delivers headAtBoundary 77 (by decide) (by decide) (by decide)
    (by decide) (by decide)⟩

/-- C8 (index range). In every state reached from `initQueue` by calls of `initQueue`,
`enqueue` and `dequeue`, whatever they return, `0 ≤ head < QUEUE_SIZE` and
`0 ≤ tail < QUEUE_SIZE`; and in such a state neither `enqueue` nor `dequeue` runs into
undefined behaviour, so the next call again leads to a reached state. -/
theorem index_range_invariant (q : CircularQueue QUEUE_SIZE) (hq : Reachable QUEUE_SIZE q) :
    (0 ≤ q.head ∧ q.head < (QUEUE_SIZE : Int) ∧ 0 ≤ q.tail ∧ q.tail < (QUEUE_SIZE : Int))
    ∧ (∀ v, (enqueue QUEUE_SIZE q v).isSome = true)
    ∧ (∀ out, (dequeue QUEUE_SIZE q out).isSome = true) := by
  have hr : InRange QUEUE_SIZE q := by
    induction hq with
    | init q => exact inRange_initQueue QUEUE_SIZE (by decide) q
    | reinit _ _ => exact inRange_initQueue QUEUE_SIZE (by decide) _
    | enqueue _ h ih => exact inRange_enqueue QUEUE_SIZE _ _ _ _ ih h
    | dequeue _ h ih => exact inRange_dequeue QUEUE_SIZE _ _ _ _ _ ih h
  refine ⟨hr, ?_, ?_⟩
  · intro v
    by_cases hfull : Int.tmod (q.tail + 1) (QUEUE_SIZE : Int) = q.head
    · rw [enqueue_full_eq QUEUE_SIZE queueSize_le_intMax q hr v hfull]; rfl
    · rw [enqueue_free_eq QUEUE_SIZE queueSize_le_intMax q hr v hfull]; rfl
  · intro out
    by_cases he : q.head = q.tail
    · rw [dequeue_empty_eq QUEUE_SIZE q out he]; rfl
    · rw [dequeue_nonempty_eq QUEUE_SIZE queueSize_le_intMax q hr out he]; rfl

theorem reachable_afterOneEnqueue : Reachable QUEUE_SIZE afterOneEnqueue :=
  Reachable.enqueue (Reachable.init emptyAtNine)
    (show enqueue QUEUE_SIZE (initQueue QUEUE_SIZE emptyAtNine) 7 = some (true, afterOneEnqueue)
      from rfl)

theorem index_range_invariant_witness :
    Reachable QUEUE_SIZE afterOneEnqueue
    ∧ (0 ≤ afterOneEnqueue.head ∧ afterOneEnqueue.head < (QUEUE_SIZE : Int)
        ∧ 0 ≤ afterOneEnqueue.tail ∧ afterOneEnqueue.tail < (QUEUE_SIZE : Int))
    ∧ (∀ v, (enqueue QUEUE_SIZE afterOneEnqueue v).isSome = true)
    ∧ (∀ out, (dequeue QUEUE_SIZE afterOneEnqueue out).isSome = true) :=
  ⟨reachable_afterOneEnqueue, index_range_invariant afterOneEnqueue reachable_afterOneEnqueue⟩

/-- C9 (wraparound). Take any start index `h` in `[0, QUEUE_SIZE)`, an empty queue with
`head = tail = h`, an empty queue with `head = tail = 0`, any buffer contents in each, and
any finite sequence of `enqueue` and `dequeue` calls. Both runs go to their end and the
client observes the same thing in both: the same returned `bool` and the same content of
its output cell after every call. -/
theorem wraparound_same_observations (qh qz : CircularQueue QUEUE_SIZE) (h : Int)
    (h0 : 0 ≤ h) (h1 : h < (QUEUE_SIZE : Int))
    (hhead : qh.head = h) (htail : qh.tail = h) (zhead : qz.head = 0) (ztail : qz.tail = 0)
    (cell : Int) (calls : List Call) :
    ∃ evs rh rz c, run QUEUE_SIZE qh cell calls = some (evs, rh, c)
      ∧ run QUEUE_SIZE qz cell calls = some (evs, rz, c) := by
  have hrh : InRange QUEUE_SIZE qh := by
    simp only [InRange, hhead, htail]; exact ⟨h0, h1, h0, h1⟩
  have hrz : InRange QUEUE_SIZE qz := by
    simp only [InRange, zhead, ztail]; decide
  obtain ⟨rh, hrunh, _, _⟩ := run_refines QUEUE_SIZE queueSize_le_intMax calls qh cell hrh
  obtain ⟨rz, hrunz, _, _⟩ := run_refines QUEUE_SIZE queueSize_le_intMax calls qz cell hrz
  rw [contents_of_head_eq_tail QUEUE_SIZE qh (by rw [hhead, htail])] at hrunh
  rw [contents_of_head_eq_tail QUEUE_SIZE qz (by rw [zhead, ztail])] at hrunz
  exact ⟨_, rh, rz, _, hrunh, hrunz⟩

theorem wraparound_same_observations_witness :
    ((0 : Int) ≤ 1023 ∧ (1023 : Int) < (QUEUE_SIZE : Int)
      ∧ emptyAtBoundary.head = 1023 ∧ emptyAtBoundary.tail = 1023
      ∧ emptyAtZero.head = 0 ∧ emptyAtZero.tail = 0)
    ∧ ∃ evs rh rz c, run QUEUE_SIZE emptyAtBoundary 77 shortCalls = some (evs, rh, c)
      ∧ run QUEUE_SIZE emptyAtZero 77 shortCalls = some (evs, rz, c) :=
  ⟨by decide, wraparound_same_observations emptyAtBoundary emptyAtZero 1023 (by decide)
    (by decide) rfl rfl rfl rfl 77 shortCalls⟩

/-- C10 (scenario with four slots). With the capacity constant taken as `4`: after
`initQueue`, `enqueue` of `10`, `20`, `30` return `true`, `enqueue` of `40` returns `false`,
`dequeue` returns `true` with `10`, `enqueue` of `40` returns `true`, the next three
`dequeue` calls return `true` with `20`, `30`, `40`, and the last `dequeue` returns
`false`. -/
theorem scenario_four_slots (q0 : CircularQueue 4) (cell : Int) :
    ∃ q c, run 4 (initQueue 4 q0) cell scenarioCalls = some (scenarioEvents cell, q, c) := by
  obtain ⟨q1, hrun, _, _⟩ := run_refines 4 (by decide) scenarioCalls (initQueue 4 q0) cell
    (inRange_initQueue 4 (by decide) q0)
  rw [contents_of_head_eq_tail 4 (initQueue 4 q0) rfl] at hrun
  exact ⟨q1, _, hrun⟩

/-! ## What a call leaves alone -/

theorem enqueue_frame (N : Nat) (q q1 : CircularQueue N) (v : Int) (ok : Bool)
    (h : enqueue N q v = some (ok, q1)) :
    q1.head = q.head ∧ ∀ i : Fin N, (i.val : Int) ≠ q.tail → q1.buffer i = q.buffer i := by
  unfold enqueue at h
  simp only at h
  split at h
  · exact absurd h (by simp)
  · split at h
    · simp only [Option.some.injEq, Prod.mk.injEq] at h
      rw [← h.2]; exact ⟨rfl, fun _ _ => rfl⟩
    · split at h
      · next hin =>
        simp only [Option.some.injEq, Prod.mk.injEq] at h
        rw [← h.2]
        refine ⟨rfl, ?_⟩
        intro i hi
        have hne : i ≠ ⟨q.tail.toNat, by omega⟩ := by
          intro e
          apply hi
          rw [e]
          simp only [Int.toNat_of_nonneg hin.1]
        simp only [Function.update_noteq hne]
      · exact absurd h (by simp)

theorem dequeue_frame (N : Nat) (q q1 : CircularQueue N) (out out1 : Int) (ok : Bool)
    (h : dequeue N q out = some (ok, out1, q1)) :
    q1.tail = q.tail ∧ q1.buffer = q.buffer := by
  unfold dequeue at h
  simp only at h
  split at h
  · simp only [Option.some.injEq, Prod.mk.injEq] at h
    rw [← h.2.2]; exact ⟨rfl, rfl⟩
  · split at h
    · split at h
      · exact absurd h (by simp)
      · simp only [Option.some.injEq, Prod.mk.injEq] at h
        rw [← h.2.2]; exact ⟨rfl, rfl⟩
    · exact absurd h (by simp)

theorem dequeue_false_eq (N : Nat) (q q1 : CircularQueue N) (out out1 : Int)
    (h : dequeue N q out = some (false, out1, q1)) : q1 = q ∧ out1 = out := by
  unfold dequeue at h
  simp only at h
  split at h
  · simp only [Option.some.injEq, Prod.mk.injEq, true_and] at h
    exact ⟨h.2.symm, h.1.symm⟩
  · split at h
    · split at h
      · exact absurd h (by simp)
      · simp only [Option.some.injEq, Prod.mk.injEq, Bool.true_eq_false, false_and] at h
    · exact absurd h (by simp)

theorem inRange_of_reachable (N : Nat) (hN : 0 < N) (q : CircularQueue N)
    (hq : Reachable N q) : InRange N q := by
  induction hq with
  | init q => exact inRange_initQueue N hN q
  | reinit _ _ => exact inRange_initQueue N hN _
  | enqueue _ h ih => exact inRange_enqueue N _ _ _ _ ih h
  | dequeue _ h ih => exact inRange_dequeue N _ _ _ _ _ ih h

theorem enqueue_defined (N : Nat) (hN : (N : Int) ≤ INT_MAX) (q : CircularQueue N)
    (hr : InRange N q) (v : Int) : ∃ ok q1, enqueue N q v = some (ok, q1) := by
  by_cases hfull : Int.tmod (q.tail + 1) (N : Int) = q.head
  · exact ⟨false, q, enqueue_full_eq N hN q hr v hfull⟩
  · exact ⟨true, _, enqueue_free_eq N hN q hr v hfull⟩

theorem dequeue_defined (N : Nat) (hN : (N : Int) ≤ INT_MAX) (q : CircularQueue N)
    (hr : InRange N q) (out : Int) : ∃ ok out1 q1, dequeue N q out = some (ok, out1, q1) := by
  by_cases he : q.head = q.tail
  · exact ⟨false, out, q, dequeue_empty_eq N q out he⟩
  · exact ⟨true, _, _, dequeue_nonempty_eq N hN q hr out he⟩

/-! ## The claims on frames and index safety -/

/-- C12, as stated, fails outside the index range. With `head = 5` and `tail = 1024` the
queue is not full, so `enqueue` assigns to `buffer[1024]`, one past the end of the array:
the call has undefined behaviour and there is no state after it in which `head` and the
other slots could be unchanged. -/
theorem frame_fails_tail_past_end :
    enqueue QUEUE_SIZE tailPastEnd 7 = none
    ∧ ¬ ∃ ok q1, enqueue QUEUE_SIZE tailPastEnd 7 = some (ok, q1)
        ∧ q1.head = tailPastEnd.head
        ∧ ∀ i : Fin QUEUE_SIZE, (i.val : Int) ≠ tailPastEnd.tail
            → q1.buffer i = tailPastEnd.buffer i := by
  have hnone : enqueue QUEUE_SIZE tailPastEnd 7 = none := rfl
  refine ⟨hnone, ?_⟩
  rintro ⟨ok, q1, h, _⟩
  rw [hnone] at h
  exact absurd h (by simp)

/-- C12 (single-writer frame), amended to states with both indices in `[0, QUEUE_SIZE)`.
In such a state `enqueue`, whatever it returns, leaves `head` and every buffer slot other
than the slot of the old `tail` unchanged; `dequeue`, whatever it returns, leaves `tail`
and every buffer slot unchanged. -/
theorem single_writer_frame (q : CircularQueue QUEUE_SIZE) (v out : Int)
    (h0 : 0 ≤ q.head) (h1 : q.head < (QUEUE_SIZE : Int))
    (t0 : 0 ≤ q.tail) (t1 : q.tail < (QUEUE_SIZE : Int)) :
    (∃ ok q1, enqueue QUEUE_SIZE q v = some (ok, q1)
        ∧ q1.head = q.head
        ∧ ∀ i : Fin QUEUE_SIZE, (i.val : Int) ≠ q.tail → q1.buffer i = q.buffer i)
    ∧ (∃ ok out1 q1, dequeue QUEUE_SIZE q out = some (ok, out1, q1)
        ∧ q1.tail = q.tail
        ∧ ∀ i : Fin QUEUE_SIZE, q1.buffer i = q.buffer i) := by
  have hr : InRange QUEUE_SIZE q := ⟨h0, h1, t0, t1⟩
  constructor
  · obtain ⟨ok, q1, he⟩ := enqueue_defined QUEUE_SIZE queueSize_le_intMax q hr v
    have hf := enqueue_frame QUEUE_SIZE q q1 v ok he
    exact ⟨ok, q1, he, hf.1, hf.2⟩
  · obtain ⟨ok, out1, q1, hd⟩ := dequeue_defined QUEUE_SIZE queueSize_le_intMax q hr out
    have hf := dequeue_frame QUEUE_SIZE q q1 out out1 ok hd
    exact ⟨ok, out1, q1, hd, hf.1, fun i => congrFun hf.2 i⟩

theorem single_writer_frame_witness :
    (0 ≤ headAtBoundary.head ∧ headAtBoundary.head < (QUEUE_SIZE : Int)
      ∧ 0 ≤ headAtBoundary.tail ∧ headAtBoundary.tail < (QUEUE_SIZE : Int))
    ∧ (∃ ok q1, enqueue QUEUE_SIZE headAtBoundary 7 = some (ok, q1)
        ∧ q1.head = headAtBoundary.head
        ∧ ∀ i : Fin QUEUE_SIZE, (i.val : Int) ≠ headAtBoundary.tail
            → q1.buffer i = headAtBoundary.buffer i)
    ∧ (∃ ok out1 q1, dequeue QUEUE_SIZE headAtBoundary 77 = some (ok, out1, q1)
        ∧ q1.tail = headAtBoundary.tail
        ∧ ∀ i : Fin QUEUE_SIZE, q1.buffer i = headAtBoundary.buffer i) :=
  ⟨by decide, single_writer_frame headAtBoundary 7 77 (by decide) (by decide) (by decide)
    (by decide)⟩

/-- C18 (index safety). In every state with both indices in `[0, QUEUE_SIZE)`, and so in
every state reached from `initQueue`: the index `tail` that `enqueue` assigns to and the
index `head` that `dequeue` reads from are in `[0, QUEUE_SIZE)`, the sums `tail + 1` and
`head + 1` do not exceed `INT_MAX`, and both calls run without undefined behaviour. -/
theorem index_safety (q : CircularQueue QUEUE_SIZE)
    (h : (0 ≤ q.head ∧ q.head < (QUEUE_SIZE : Int) ∧ 0 ≤ q.tail ∧ q.tail < (QUEUE_SIZE : Int))
      ∨ Reachable QUEUE_SIZE q) :
    (0 ≤ q.tail ∧ q.tail < (QUEUE_SIZE : Int))
    ∧ (0 ≤ q.head ∧ q.head < (QUEUE_SIZE : Int))
    ∧ q.tail + 1 ≤ INT_MAX ∧ q.head + 1 ≤ INT_MAX
    ∧ (∀ v, ∃ ok q1, enqueue QUEUE_SIZE q v = some (ok, q1))
    ∧ (∀ out, ∃ ok out1 q1, dequeue QUEUE_SIZE q out = some (ok, out1, q1)) := by
  have hr : InRange QUEUE_SIZE q := by
    rcases h with h | h
    · exact h
    · exact inRange_of_reachable QUEUE_SIZE (by decide) q h
  obtain ⟨h0, h1, t0, t1⟩ := hr
  have hN := queueSize_le_intMax
  refine ⟨⟨t0, t1⟩, ⟨h0, h1⟩, by omega, by omega, ?_, ?_⟩
  · exact fun v => enqueue_defined QUEUE_SIZE hN q ⟨h0, h1, t0, t1⟩ v
  · exact fun out => dequeue_defined QUEUE_SIZE hN q ⟨h0, h1, t0, t1⟩ out

theorem index_safety_witness :
    ((0 ≤ fullAtBoundary.head ∧ fullAtBoundary.head < (QUEUE_SIZE : Int)
        ∧ 0 ≤ fullAtBoundary.tail ∧ fullAtBoundary.tail < (QUEUE_SIZE : Int))
      ∨ Reachable QUEUE_SIZE fullAtBoundary)
    ∧ (0 ≤ fullAtBoundary.tail ∧ fullAtBoundary.tail < (QUEUE_SIZE : Int))
    ∧ (0 ≤ fullAtBoundary.head ∧ fullAtBoundary.head < (QUEUE_SIZE : Int))
    ∧ fullAtBoundary.tail + 1 ≤ INT_MAX ∧ fullAtBoundary.head + 1 ≤ INT_MAX
    ∧ (∀ v, ∃ ok q1, enqueue QUEUE_SIZE fullAtBoundary v = some (ok, q1))
    ∧ (∀ out, ∃ ok out1 q1, dequeue QUEUE_SIZE fullAtBoundary out = some (ok, out1, q1)) :=
  ⟨Or.inl (by decide), index_safety fullAtBoundary (Or.inl (by decide))⟩

/-! ## Counting what is in the queue -/

theorem occupancy_eq_emod (N : Nat) (q : CircularQueue N) (hr : InRange N q) :
    (q.tail - q.head) % (N : Int) = (occupancy N q : Int) := by
  obtain ⟨h0, h1, t0, t1⟩ := hr
  unfold occupancy
  split
  · rw [Int.emod_eq_of_lt (by omega) (by omega), Int.toNat_of_nonneg (by omega)]
  · rw [← Int.add_emod_self, Int.emod_eq_of_lt (by omega) (by omega),
      Int.toNat_of_nonneg (by omega)]
    omega

theorem run_accounting (N : Nat) (hN0 : 0 < N) (hN : (N : Int) ≤ INT_MAX)
    (q0 : CircularQueue N) (cell : Int) (calls : List Call) :
    ∃ evs q c, run N (initQueue N q0) cell calls = some (evs, q, c) ∧ InRange N q
      ∧ (accepted evs).length = (delivered evs).length + occupancy N q := by
  have hr := inRange_initQueue N hN0 q0
  obtain ⟨q1, hrun, hr1, hc⟩ := run_refines N hN calls _ cell hr
  have hfifo := listRun_fifo (N - 1) calls (contents N (initQueue N q0)) cell
  rw [contents_of_head_eq_tail N (initQueue N q0) rfl] at hfifo hrun hc
  rw [List.nil_append, ← hc] at hfifo
  refine ⟨_, q1, _, hrun, hr1, ?_⟩
  rw [hfifo, List.length_append, length_contents]

/-- C17 (occupancy accounting). After any finite sequence of `enqueue` and `dequeue` calls
on a queue that `initQueue` has just initialised, `(tail - head) mod QUEUE_SIZE` is the
number of successful `enqueue` calls minus the number of successful `dequeue` calls, this
number lies in `[0, QUEUE_SIZE - 1]`, the next `enqueue` returns `false` exactly when it is
`QUEUE_SIZE - 1`, and the next `dequeue` returns `false` exactly when it is `0`. -/
theorem occupancy_accounting (q0 : CircularQueue QUEUE_SIZE) (cell : Int) (calls : List Call) :
    ∃ evs q c, run QUEUE_SIZE (initQueue QUEUE_SIZE q0) cell calls = some (evs, q, c)
      ∧ (q.tail - q.head) % (QUEUE_SIZE : Int)
          = ((accepted evs).length : Int) - ((delivered evs).length : Int)
      ∧ 0 ≤ ((accepted evs).length : Int) - ((delivered evs).length : Int)
      ∧ ((accepted evs).length : Int) - ((delivered evs).length : Int) ≤ (QUEUE_SIZE : Int) - 1
      ∧ (∀ v, ∃ ok q1, enqueue QUEUE_SIZE q v = some (ok, q1)
          ∧ (ok = false ↔ ((accepted evs).length : Int) - ((delivered evs).length : Int)
              = (QUEUE_SIZE : Int) - 1))
      ∧ (∀ out, ∃ ok out1 q1, dequeue QUEUE_SIZE q out = some (ok, out1, q1)
          ∧ (ok = false ↔ ((accepted evs).length : Int) - ((delivered evs).length : Int) = 0)) := by
  obtain ⟨evs, q, c, hrun, hr, hlen⟩ :=
    run_accounting QUEUE_SIZE (by decide) queueSize_le_intMax q0 cell calls
  have hocc := occupancy_lt QUEUE_SIZE q hr
  have hmod := occupancy_eq_emod QUEUE_SIZE q hr
  have hN := queueSize_le_intMax
  refine ⟨evs, q, c, hrun, by omega, by omega, by omega, ?_, ?_⟩
  · intro v
    by_cases hfull : Int.tmod (q.tail + 1) (QUEUE_SIZE : Int) = q.head
    · have := (full_iff_occupancy QUEUE_SIZE q hr).1 hfull
      exact ⟨false, q, enqueue_full_eq QUEUE_SIZE hN q hr v hfull, by
        simp only [true_iff]; omega⟩
    · have : occupancy QUEUE_SIZE q ≠ QUEUE_SIZE - 1 :=
        fun h => hfull ((full_iff_occupancy QUEUE_SIZE q hr).2 h)
      exact ⟨true, _, enqueue_free_eq QUEUE_SIZE hN q hr v hfull, by
        simp only [Bool.true_eq_false, false_iff]; omega⟩
  · intro out
    by_cases he : q.head = q.tail
    · have := (empty_iff_occupancy QUEUE_SIZE q hr).1 he
      exact ⟨false, out, q, dequeue_empty_eq QUEUE_SIZE q out he, by
        simp only [true_iff]; omega⟩
    · have : occupancy QUEUE_SIZE q ≠ 0 :=
        fun h => he ((empty_iff_occupancy QUEUE_SIZE q hr).2 h)
      exact ⟨true, _, _, dequeue_nonempty_eq QUEUE_SIZE hN q hr out he, by
        simp only [Bool.true_eq_false, false_iff]; omega⟩

/-! ## The slot that stays free -/

theorem pred_emod_of_inRange (N : Nat) (h : Int) (h0 : 0 ≤ h) (h1 : h < (N : Int)) :
    (h + (N : Int) - 1) % (N : Int) = if h = 0 then (N : Int) - 1 else h - 1 := by
  split
  · next e =>
    subst e
    have : (0 : Int) + (N : Int) - 1 = (N : Int) - 1 := by omega
    rw [this]
    exact Int.emod_eq_of_lt (by omega) (by omega)
  · next e =>
    have : h + (N : Int) - 1 = (h - 1) + (N : Int) := by omega
    rw [this, Int.add_emod_self]
    exact Int.emod_eq_of_lt (by omega) (by omega)

theorem step_no_delivery (N : Nat) (q q1 : CircularQueue N) (cell cell1 : Int) (c : Call)
    (ev : Event) (evs : List Event) (h : step N q cell c = some (ev, q1, cell1))
    (hd : delivered (ev :: evs) = []) : q1.head = q.head ∧ delivered evs = [] := by
  cases c with
  | enqueue v =>
    simp only [step] at h
    cases he : enqueue N q v with
    | none => rw [he] at h; exact absurd h (by simp)
    | some r =>
      obtain ⟨ok, q2⟩ := r
      rw [he] at h
      simp only [Option.some.injEq, Prod.mk.injEq] at h
      obtain ⟨rfl, rfl, _⟩ := h
      refine ⟨(enqueue_frame N q q2 v ok he).1, ?_⟩
      cases ok <;> simpa [delivered] using hd
  | dequeue =>
    simp only [step] at h
    cases he : dequeue N q cell with
    | none => rw [he] at h; exact absurd h (by simp)
    | some r =>
      obtain ⟨ok, x, q2⟩ := r
      rw [he] at h
      simp only [Option.some.injEq, Prod.mk.injEq] at h
      obtain ⟨rfl, rfl, _⟩ := h
      cases ok with
      | false =>
        have := (dequeue_false_eq N q q2 cell x he).1
        refine ⟨by rw [this], ?_⟩
        simpa [delivered] using hd
      | true => simp [delivered] at hd

theorem run_head_fixed (N : Nat) (calls : List Call) :
    ∀ (q q1 : CircularQueue N) (cell c : Int) (evs : List Event),
      run N q cell calls = some (evs, q1, c) → delivered evs = [] → q1.head = q.head := by
  induction calls with
  | nil =>
    intro q q1 cell c evs h _
    simp only [run, Option.some.injEq, Prod.mk.injEq] at h
    rw [← h.2.1]
  | cons a rest ih =>
    intro q q1 cell c evs h hd
    simp only [run] at h
    cases hs : step N q cell a with
    | none => rw [hs] at h; exact absurd h (by simp)
    | some r =>
      obtain ⟨ev, q2, cell2⟩ := r
      rw [hs] at h
      simp only at h
      cases hr : run N q2 cell2 rest with
      | none => rw [hr] at h; exact absurd h (by simp)
      | some r2 =>
        obtain ⟨evs2, q3, c3⟩ := r2
        rw [hr] at h
        simp only [Option.some.injEq, Prod.mk.injEq] at h
        obtain ⟨rfl, rfl, rfl⟩ := h
        obtain ⟨hh, hd2⟩ := step_no_delivery N q q2 cell cell2 a ev evs2 hs hd
        rw [ih q2 q3 cell2 c3 evs2 hr hd2, hh]

theorem run_append (N : Nat) (a b : List Call) :
    ∀ (q q1 q2 : CircularQueue N) (cell c1 c2 : Int) (evs1 evs2 : List Event),
      run N q cell a = some (evs1, q1, c1) → run N q1 c1 b = some (evs2, q2, c2) →
      run N q cell (a ++ b) = some (evs1 ++ evs2, q2, c2) := by
  induction a with
  | nil =>
    intro q q1 q2 cell c1 c2 evs1 evs2 h1 h2
    simp only [run, Option.some.injEq, Prod.mk.injEq] at h1
    obtain ⟨rfl, rfl, rfl⟩ := h1
    simpa using h2
  | cons x rest ih =>
    intro q q1 q2 cell c1 c2 evs1 evs2 h1 h2
    simp only [run] at h1
    cases hs : step N q cell x with
    | none => rw [hs] at h1; exact absurd h1 (by simp)
    | some r =>
      obtain ⟨ev, q3, cell3⟩ := r
      rw [hs] at h1
      simp only at h1
      cases hr : run N q3 cell3 rest with
      | none => rw [hr] at h1; exact absurd h1 (by simp)
      | some r2 =>
        obtain ⟨evs3, q4, c4⟩ := r2
        rw [hr] at h1
        simp only [Option.some.injEq, Prod.mk.injEq] at h1
        obtain ⟨rfl, rfl, rfl⟩ := h1
        have := ih q3 q4 q2 cell3 c4 c2 evs3 evs2 hr h2
        show run N q cell (x :: (rest ++ b)) = some (ev :: (evs3 ++ evs2), q2, c2)
        simp only [run, hs, this]

theorem run_replicate_enqueue (N : Nat) (hN : (N : Int) ≤ INT_MAX) (v : Int) (k : Nat) :
    ∀ (q : CircularQueue N) (cell : Int), q.head = 0 → 0 ≤ q.tail → q.tail + (k : Int) < (N : Int) →
      ∃ evs q1, run N q cell (List.replicate k (Call.enqueue v)) = some (evs, q1, cell)
        ∧ q1.head = 0 ∧ q1.tail = q.tail + (k : Int)
        ∧ ∀ i : Fin N, q.tail + (k : Int) ≤ (i.val : Int) → q1.buffer i = q.buffer i := by
  induction k with
  | zero =>
    intro q cell hh _ _
    exact ⟨[], q, rfl, hh, by simp, fun _ _ => rfl⟩
  | succ k ih =>
    intro q cell hh t0 hk
    have hr : InRange N q := ⟨by omega, by omega, t0, by omega⟩
    have hm := tmod_succ_of_inRange N q.tail t0 (by omega)
    have hne : q.tail + 1 ≠ (N : Int) := by omega
    rw [if_neg hne] at hm
    have hfree : Int.tmod (q.tail + 1) (N : Int) ≠ q.head := by rw [hm, hh]; omega
    have henq := enqueue_free_eq N hN q hr v hfree
    obtain ⟨evs, q1, hrun, hh1, ht1, hb1⟩ := ih _ cell
      (show (CircularQueue.mk (Function.update q.buffer ⟨q.tail.toNat, by omega⟩ v) q.head
        (Int.tmod (q.tail + 1) (N : Int))).head = 0 from hh)
      (show 0 ≤ Int.tmod (q.tail + 1) (N : Int) by rw [hm]; omega)
      (show Int.tmod (q.tail + 1) (N : Int) + (k : Int) < (N : Int) by rw [hm]; omega)
    refine ⟨⟨Call.enqueue v, true, cell⟩ :: evs, q1, ?_, hh1, ?_, ?_⟩
    · simp only [List.replicate_succ, run, step, henq, hrun]
    · rw [ht1]; simp only [hm]; omega
    · intro i hi
      rw [hb1 i (by simp only [hm]; omega)]
      exact (enqueue_frame N q _ v true henq).2 i (by omega)

/-- C11, as stated, fails. From a queue that `initQueue` has just initialised, `1023`
accepted values and one `dequeue` lead to `head = 1`, `tail = 1023`; the next `enqueue` is
accepted and assigns its value to the last slot `buffer[1023]`, which held `0` before. -/
theorem last_slot_is_stored :
    ∃ evs q c q1,
      run QUEUE_SIZE (initQueue QUEUE_SIZE emptyAtZero) 0 lastSlotCalls = some (evs, q, c)
      ∧ q.tail = 1023 ∧ q.buffer ⟨1023, by decide⟩ = 0
      ∧ enqueue QUEUE_SIZE q 5 = some (true, q1) ∧ q1.buffer ⟨1023, by decide⟩ = 5 := by
  have hN := queueSize_le_intMax
  obtain ⟨evs, q1, hrun, hh1, ht1, hb1⟩ := run_replicate_enqueue QUEUE_SIZE hN 1 1023
    (initQueue QUEUE_SIZE emptyAtZero) 0 rfl (by decide) (by decide)
  have ht1 : q1.tail = 1023 := by rw [ht1]; rfl
  have hr1 : InRange QUEUE_SIZE q1 := by
    simp only [InRange, hh1, ht1]; decide
  have hne : q1.head ≠ q1.tail := by rw [hh1, ht1]; decide
  have hdeq := dequeue_nonempty_eq QUEUE_SIZE hN q1 hr1 0 hne
  have hhead : Int.tmod (q1.head + 1) (QUEUE_SIZE : Int) = 1 := by rw [hh1]; rfl
  rw [hhead] at hdeq
  obtain ⟨x, hx⟩ : ∃ x, dequeue QUEUE_SIZE q1 0
      = some (true, x, CircularQueue.mk q1.buffer 1 q1.tail) := ⟨_, hdeq⟩
  have hpop : run QUEUE_SIZE q1 0 [Call.dequeue]
      = some ([⟨Call.dequeue, true, x⟩], CircularQueue.mk q1.buffer 1 q1.tail, x) := by
    simp only [run, step, hx]
  have hrun2 := run_append QUEUE_SIZE _ [Call.dequeue] _ q1 _ 0 0 _ evs _ hrun hpop
  have hr2 : InRange QUEUE_SIZE (CircularQueue.mk q1.buffer 1 q1.tail) := by
    simp only [InRange, ht1]; decide
  have hfree : Int.tmod ((CircularQueue.mk q1.buffer 1 q1.tail).tail + 1) (QUEUE_SIZE : Int)
      ≠ (CircularQueue.mk q1.buffer 1 q1.tail).head := by
    simp only [ht1]; decide
  have henq := enqueue_free_eq QUEUE_SIZE hN _ hr2 5 hfree
  refine ⟨_, _, _, _, hrun2, ht1, ?_, henq, ?_⟩
  · rw [hb1 ⟨1023, by decide⟩ (by decide)]; rfl
  · have e : (⟨1023, by decide⟩ : Fin QUEUE_SIZE)
        = ⟨(CircularQueue.mk q1.buffer 1 q1.tail).tail.toNat, by simp only [ht1]; decide⟩ := by
      apply Fin.ext; simp only [ht1]; rfl
    rw [e]
    simp only [Function.update_same]

/-- C11, amended: the slot kept free is the one just before `head`, not always the last
one. After any finite sequence of `enqueue` and `dequeue` calls on a queue that `initQueue`
has just initialised, the next `enqueue` does not assign to the slot of index
`(head + QUEUE_SIZE - 1) mod QUEUE_SIZE`: an accepted call has its `tail` elsewhere and the
slot holds afterwards what it held before. As long as no `dequeue` has returned `true`,
that slot is the last one, `buffer[QUEUE_SIZE - 1]`. -/
theorem free_slot_not_stored (q0 : CircularQueue QUEUE_SIZE) (cell : Int) (calls : List Call) :
    ∃ evs q c, run QUEUE_SIZE (initQueue QUEUE_SIZE q0) cell calls = some (evs, q, c)
      ∧ ∀ v, ∃ ok q1, enqueue QUEUE_SIZE q v = some (ok, q1)
        ∧ (ok = true → q.tail ≠ (q.head + (QUEUE_SIZE : Int) - 1) % (QUEUE_SIZE : Int))
        ∧ (∀ i : Fin QUEUE_SIZE,
            (i.val : Int) = (q.head + (QUEUE_SIZE : Int) - 1) % (QUEUE_SIZE : Int)
              → q1.buffer i = q.buffer i)
        ∧ (delivered evs = [] →
            (ok = true → q.tail ≠ (QUEUE_SIZE : Int) - 1)
            ∧ ∀ i : Fin QUEUE_SIZE, i.val = QUEUE_SIZE - 1 → q1.buffer i = q.buffer i) := by
  obtain ⟨evs, q, c, hrun, hr, _⟩ :=
    run_accounting QUEUE_SIZE (by decide) queueSize_le_intMax q0 cell calls
  refine ⟨evs, q, c, hrun, ?_⟩
  intro v
  obtain ⟨h0, h1, t0, t1⟩ := hr
  have hpred := pred_emod_of_inRange QUEUE_SIZE q.head h0 h1
  have hsucc := tmod_succ_of_inRange QUEUE_SIZE q.tail t0 t1
  have hzero : delivered evs = [] → q.head = 0 := fun hd =>
    run_head_fixed QUEUE_SIZE calls _ q cell c evs hrun hd
  have hfree : ∀ ok q1, enqueue QUEUE_SIZE q v = some (ok, q1) → ok = true →
      q.tail ≠ (q.head + (QUEUE_SIZE : Int) - 1) % (QUEUE_SIZE : Int) := by
    intro ok q1 he hok
    by_cases hfull : Int.tmod (q.tail + 1) (QUEUE_SIZE : Int) = q.head
    · rw [enqueue_full_eq QUEUE_SIZE queueSize_le_intMax q ⟨h0, h1, t0, t1⟩ v hfull] at he
      simp only [Option.some.injEq, Prod.mk.injEq] at he
      rw [hok] at he
      exact absurd he.1 (by decide)
    · rw [hsucc] at hfull
      rw [hpred]
      split_ifs at hfull ⊢ <;> omega
  obtain ⟨ok, q1, he⟩ :=
    enqueue_defined QUEUE_SIZE queueSize_le_intMax q ⟨h0, h1, t0, t1⟩ v
  have hframe := (enqueue_frame QUEUE_SIZE q q1 v ok he).2
  have hkeep : ∀ i : Fin QUEUE_SIZE,
      (i.val : Int) = (q.head + (QUEUE_SIZE : Int) - 1) % (QUEUE_SIZE : Int)
        → q1.buffer i = q.buffer i := by
    intro i hi
    cases ok with
    | false =>
      by_cases hfull : Int.tmod (q.tail + 1) (QUEUE_SIZE : Int) = q.head
      · rw [enqueue_full_eq QUEUE_SIZE queueSize_le_intMax q ⟨h0, h1, t0, t1⟩ v hfull] at he
        simp only [Option.some.injEq, Prod.mk.injEq, true_and] at he
        rw [← he]
      · rw [enqueue_free_eq QUEUE_SIZE queueSize_le_intMax q ⟨h0, h1, t0, t1⟩ v hfull] at he
        simp only [Option.some.injEq, Prod.mk.injEq, Bool.true_eq_false, false_and] at he
    | true =>
      exact hframe i (by rw [hi]; exact fun e => hfree true q1 he rfl e.symm)
  refine ⟨ok, q1, he, hfree ok q1 he, hkeep, ?_⟩
  intro hd
  have hh := hzero hd
  have hlast : (q.head + (QUEUE_SIZE : Int) - 1) % (QUEUE_SIZE : Int) = (QUEUE_SIZE : Int) - 1 := by
    rw [hpred, if_pos hh]
  refine ⟨fun hok => hlast ▸ hfree ok q1 he hok, ?_⟩
  intro i hi
  apply hkeep i
  rw [hlast, hi]
  decide

/-! ## Two threads: the invariant -/

theorem occupancy_eq_ringDist (N : Nat) (q : CircularQueue N) :
    occupancy N q = ringDist N q.head q.tail := rfl

theorem contents_write_tail (N : Nat) (b : Fin N → Int) (hd tl : Int)
    (hr : InRange N ⟨b, hd, tl⟩) (v : Int) (ht : tl.toNat < N) :
    contents N ⟨Function.update b ⟨tl.toNat, ht⟩ v, hd, tl⟩ = contents N ⟨b, hd, tl⟩ := by
  obtain ⟨h0, h1, t0, t1⟩ := hr
  simp only at h0 h1 t0 t1
  have hocc : occupancy N ⟨Function.update b ⟨tl.toNat, ht⟩ v, hd, tl⟩
      = occupancy N ⟨b, hd, tl⟩ := rfl
  simp only [contents, hocc]
  apply List.map_congr_left
  intro i hi
  rw [List.mem_range] at hi
  rw [peek_update]
  have hne : wrapIdx N hd.toNat i ≠ tl.toNat := by
    simp only [occupancy] at hi
    unfold wrapIdx
    split_ifs at hi ⊢ <;> omega
  simp only [hne, if_false]

theorem contents_advance_tail (N : Nat) (b : Fin N → Int) (hd tl : Int)
    (hr : InRange N ⟨b, hd, tl⟩) (hfree : Int.tmod (tl + 1) (N : Int) ≠ hd)
    (ht : tl.toNat < N) :
    contents N ⟨b, hd, Int.tmod (tl + 1) (N : Int)⟩
      = contents N ⟨b, hd, tl⟩ ++ [b ⟨tl.toNat, ht⟩] := by
  have := contents_push N b hd tl hr hfree (b ⟨tl.toNat, ht⟩) ht
  rwa [Function.update_eq_self] at this

theorem peek_of_lt (N : Nat) (b : Fin N → Int) (i : Nat) (hi : i < N) :
    peek N b i = b ⟨i, hi⟩ := by
  unfold peek
  simp only [hi, dif_pos]

theorem consumerOk_of_producer_move (N : Nat) (s s1 : System N)
    (hpc : s1.consumer = s.consumer) (hhead : s1.queue.head = s.queue.head)
    (hcell : s1.cell = s.cell)
    (hdist : ringDist N s.queue.head s.queue.tail ≤ ringDist N s1.queue.head s1.queue.tail)
    (hslot : 1 ≤ ringDist N s.queue.head s.queue.tail →
      peek N s1.queue.buffer s.queue.head.toNat = peek N s.queue.buffer s.queue.head.toNat)
    (h : ConsumerOk N s) : ConsumerOk N s1 := by
  unfold ConsumerOk at h ⊢
  rw [hpc]
  cases hc : s.consumer with
  | loadHead => trivial
  | loadTail head =>
    simp only [hc] at h ⊢
    rw [hhead]; exact h
  | readSlot head tail =>
    simp only [hc] at h ⊢
    rw [hhead]
    exact ⟨h.1, by rw [← hhead]; omega⟩
  | storeHead head tail =>
    simp only [hc] at h ⊢
    obtain ⟨e, hd, hcl⟩ := h
    rw [hhead]
    refine ⟨e, by rw [← hhead]; omega, ?_⟩
    rw [hcell, hcl, e, hslot hd]

theorem producerOk_of_consumer_move (N : Nat) (s s1 : System N)
    (hpc : s1.producer = s.producer) (htail : s1.queue.tail = s.queue.tail)
    (hsend : s1.toSend = s.toSend) (hbuf : s1.queue.buffer = s.queue.buffer)
    (hdist : ringDist N s1.queue.head s1.queue.tail ≤ ringDist N s.queue.head s.queue.tail)
    (h : ProducerOk N s) : ProducerOk N s1 := by
  unfold ProducerOk at h ⊢
  rw [hpc]
  cases hp : s.producer with
  | loadHead => trivial
  | loadTail head =>
    simp only [hp] at h ⊢
    obtain ⟨a, b, c⟩ := h
    refine ⟨a, b, ?_⟩
    rw [htail] at hdist ⊢
    omega
  | writeSlot head tail =>
    simp only [hp] at h ⊢
    obtain ⟨a, b⟩ := h
    exact ⟨by rw [htail]; exact a, by omega⟩
  | storeTail head tail =>
    simp only [hp] at h ⊢
    obtain ⟨a, b, c⟩ := h
    refine ⟨by rw [htail]; exact a, by omega, ?_⟩
    rw [hsend, hbuf]
    exact c

theorem producerStep_inv (N : Nat) (hN : (N : Int) ≤ INT_MAX) (sent : List Int)
    (s : System N) (hinv : SystemInv N sent s) :
    ∃ s1, producerStep N s = some s1 ∧ SystemInv N sent s1
      ∧ s1.received = s.received ∧ s1.consumer = s.consumer ∧ s1.cell = s.cell
      ∧ s1.queue.head = s.queue.head := by
  obtain ⟨hr, hsent, hp, hc⟩ := hinv
  obtain ⟨h0, h1, t0, t1⟩ := hr
  have hsucc := tmod_succ_of_inRange N s.queue.tail t0 t1
  have hov : ¬ INT_MAX < s.queue.tail + 1 := by omega
  cases hs : s.toSend with
  | nil =>
    refine ⟨s, ?_, ⟨⟨h0, h1, t0, t1⟩, hsent, hp, hc⟩, rfl, rfl, rfl, rfl⟩
    simp only [producerStep, hs]
  | cons value rest =>
    cases hpc : s.producer with
    | loadHead =>
      refine ⟨{ s with producer := ProducerPc.loadTail s.queue.head }, ?_,
        ⟨⟨h0, h1, t0, t1⟩, hsent, ?_, ?_⟩, rfl, rfl, rfl, rfl⟩
      · simp only [producerStep, hs, hpc]
      · simp only [ProducerOk]
        exact ⟨h0, h1, le_refl _⟩
      · exact consumerOk_of_producer_move N s _ rfl rfl rfl (le_refl _) (fun _ => rfl) hc
    | loadTail head =>
      simp only [ProducerOk, hpc] at hp
      obtain ⟨p0, p1, pd⟩ := hp
      by_cases hfull : Int.tmod (s.queue.tail + 1) (N : Int) = head
      · refine ⟨{ s with producer := ProducerPc.loadHead }, ?_,
          ⟨⟨h0, h1, t0, t1⟩, hsent, ?_, ?_⟩, rfl, rfl, rfl, rfl⟩
        · simp only [producerStep, hs, hpc, hov, hfull, if_true, if_false]
        · simp only [ProducerOk]
        · exact consumerOk_of_producer_move N s _ rfl rfl rfl (le_refl _) (fun _ => rfl) hc
      · refine ⟨{ s with producer := ProducerPc.writeSlot head s.queue.tail }, ?_,
          ⟨⟨h0, h1, t0, t1⟩, hsent, ?_, ?_⟩, rfl, rfl, rfl, rfl⟩
        · simp only [producerStep, hs, hpc, hov, hfull, if_false]
        · simp only [ProducerOk, true_and]
          rw [hsucc] at hfull
          unfold ringDist at pd ⊢
          split_ifs at hfull pd ⊢ <;> omega
        · exact consumerOk_of_producer_move N s _ rfl rfl rfl (le_refl _) (fun _ => rfl) hc
    | writeSlot head tail =>
      simp only [ProducerOk, hpc] at hp
      obtain ⟨e, pd⟩ := hp
      subst e
      have hin : 0 ≤ s.queue.tail ∧ s.queue.tail < (N : Int) := ⟨t0, t1⟩
      have htn : s.queue.tail.toNat < N := by omega
      refine ⟨{ s with
          queue := ⟨Function.update s.queue.buffer ⟨s.queue.tail.toNat, htn⟩ value,
            s.queue.head, s.queue.tail⟩
          producer := ProducerPc.storeTail head s.queue.tail }, ?_,
        ⟨⟨h0, h1, t0, t1⟩, ?_, ?_, ?_⟩, rfl, rfl, rfl, rfl⟩
      · simp only [producerStep, hs, hpc, hin, and_self, dif_pos]
      · have hcw := contents_write_tail N s.queue.buffer s.queue.head s.queue.tail
          ⟨h0, h1, t0, t1⟩ value htn
        have hq : contents N ⟨s.queue.buffer, s.queue.head, s.queue.tail⟩
            = contents N s.queue := rfl
        simp only [hcw, hq]
        exact hsent
      · simp only [ProducerOk, true_and]
        refine ⟨pd, ?_⟩
        intro value1 rest1 hv
        rw [hs] at hv
        rw [peek_update, if_pos rfl]
        exact (List.cons.inj hv).1
      · refine consumerOk_of_producer_move N s _ rfl rfl rfl (le_refl _) ?_ hc
        intro hd
        simp only
        rw [peek_update]
        have hne : s.queue.head.toNat ≠ s.queue.tail.toNat := by
          unfold ringDist at hd
          split_ifs at hd <;> omega
        simp only [hne, if_false]
    | storeTail head tail =>
      simp only [ProducerOk, hpc] at hp
      obtain ⟨e, pd, hval⟩ := hp
      subst e
      have htn : s.queue.tail.toNat < N := by omega
      have hfree : Int.tmod (s.queue.tail + 1) (N : Int) ≠ s.queue.head := by
        rw [hsucc]
        unfold ringDist at pd
        split_ifs at pd ⊢ <;> omega
      refine ⟨{ s with
          queue := ⟨s.queue.buffer, s.queue.head, Int.tmod (s.queue.tail + 1) (N : Int)⟩
          producer := ProducerPc.loadHead
          toSend := rest }, ?_, ⟨?_, ?_, ?_, ?_⟩, rfl, rfl, rfl, rfl⟩
      · simp only [producerStep, hs, hpc, hov, if_false]
      · refine ⟨h0, h1, ?_, ?_⟩ <;> simp only [hsucc] <;> split_ifs <;> omega
      · have hadv := contents_advance_tail N s.queue.buffer s.queue.head s.queue.tail
          ⟨h0, h1, t0, t1⟩ hfree htn
        have hq : contents N ⟨s.queue.buffer, s.queue.head, s.queue.tail⟩
            = contents N s.queue := rfl
        have hv := hval value rest hs
        rw [peek_of_lt N s.queue.buffer s.queue.tail.toNat htn] at hv
        simp only [hadv, hq, hv]
        rw [hsent, hs]
        simp only [List.append_assoc, List.singleton_append]
      · simp only [ProducerOk]
      · refine consumerOk_of_producer_move N s _ rfl rfl rfl ?_ (fun _ => rfl) hc
        simp only [hsucc]
        unfold ringDist at pd ⊢
        split_ifs at pd ⊢ <;> omega

theorem consumerStep_inv (N : Nat) (hN : (N : Int) ≤ INT_MAX) (total : Nat) (sent : List Int)
    (s : System N) (hinv : SystemInv N sent s) :
    ∃ s1, consumerStep N total s = some s1 ∧ SystemInv N sent s1
      ∧ s1.toSend = s.toSend ∧ s1.producer = s.producer
      ∧ s1.queue.tail = s.queue.tail ∧ s1.queue.buffer = s.queue.buffer := by
  obtain ⟨hr, hsent, hp, hc⟩ := hinv
  obtain ⟨h0, h1, t0, t1⟩ := hr
  have hsucc := tmod_succ_of_inRange N s.queue.head h0 h1
  have hov : ¬ INT_MAX < s.queue.head + 1 := by omega
  by_cases hdone : s.received.length = total
  · refine ⟨s, ?_, ⟨⟨h0, h1, t0, t1⟩, hsent, hp, hc⟩, rfl, rfl, rfl, rfl⟩
    simp only [consumerStep, hdone, if_true]
  · cases hpc : s.consumer with
    | loadHead =>
      refine ⟨{ s with consumer := ConsumerPc.loadTail s.queue.head }, ?_,
        ⟨⟨h0, h1, t0, t1⟩, hsent, ?_, ?_⟩, rfl, rfl, rfl, rfl⟩
      · simp only [consumerStep, hdone, hpc, if_false]
      · exact producerOk_of_consumer_move N s _ rfl rfl rfl rfl (le_refl _) hp
      · simp only [ConsumerOk]
    | loadTail head =>
      simp only [ConsumerOk, hpc] at hc
      subst hc
      by_cases he : s.queue.head = s.queue.tail
      · refine ⟨{ s with consumer := ConsumerPc.loadHead }, ?_,
          ⟨⟨h0, h1, t0, t1⟩, hsent, ?_, ?_⟩, rfl, rfl, rfl, rfl⟩
        · simp only [consumerStep, hdone, hpc, he, if_true, if_false]
        · exact producerOk_of_consumer_move N s _ rfl rfl rfl rfl (le_refl _) hp
        · simp only [ConsumerOk]
      · refine ⟨{ s with consumer := ConsumerPc.readSlot s.queue.head s.queue.tail }, ?_,
          ⟨⟨h0, h1, t0, t1⟩, hsent, ?_, ?_⟩, rfl, rfl, rfl, rfl⟩
        · simp only [consumerStep, hdone, hpc, he, if_false]
        · exact producerOk_of_consumer_move N s _ rfl rfl rfl rfl (le_refl _) hp
        · simp only [ConsumerOk, true_and]
          unfold ringDist
          split_ifs <;> omega
    | readSlot head tail =>
      simp only [ConsumerOk, hpc] at hc
      obtain ⟨e, cd⟩ := hc
      subst e
      have hin : 0 ≤ s.queue.head ∧ s.queue.head < (N : Int) := ⟨h0, h1⟩
      have hhn : s.queue.head.toNat < N := by omega
      refine ⟨{ s with
          cell := s.queue.buffer ⟨s.queue.head.toNat, hhn⟩
          consumer := ConsumerPc.storeHead s.queue.head tail }, ?_,
        ⟨⟨h0, h1, t0, t1⟩, hsent, ?_, ?_⟩, rfl, rfl, rfl, rfl⟩
      · simp only [consumerStep, hdone, hpc, hin, and_self, dif_pos, if_false]
      · exact producerOk_of_consumer_move N s _ rfl rfl rfl rfl (le_refl _) hp
      · simp only [ConsumerOk, true_and]
        exact ⟨cd, (peek_of_lt N s.queue.buffer s.queue.head.toNat hhn).symm⟩
    | storeHead head tail =>
      simp only [ConsumerOk, hpc] at hc
      obtain ⟨e, cd, hcell⟩ := hc
      subst e
      have hhn : s.queue.head.toNat < N := by omega
      have hne : s.queue.head ≠ s.queue.tail := by
        unfold ringDist at cd
        split_ifs at cd <;> omega
      refine ⟨{ s with
          queue := ⟨s.queue.buffer, Int.tmod (s.queue.head + 1) (N : Int), s.queue.tail⟩
          consumer := ConsumerPc.loadHead
          received := s.received ++ [s.cell] }, ?_, ⟨?_, ?_, ?_, ?_⟩, rfl, rfl, rfl, rfl⟩
      · simp only [consumerStep, hdone, hpc, hov, if_false]
      · refine ⟨?_, ?_, t0, t1⟩ <;> simp only [hsucc] <;> split_ifs <;> omega
      · have hpop := contents_pop N s.queue.buffer s.queue.head s.queue.tail
          ⟨h0, h1, t0, t1⟩ hne hhn
        have hq : contents N ⟨s.queue.buffer, s.queue.head, s.queue.tail⟩
            = contents N s.queue := rfl
        rw [hq] at hpop
        rw [peek_of_lt N s.queue.buffer s.queue.head.toNat hhn] at hcell
        rw [hsent, hpop, hcell]
        simp only [List.append_assoc, List.singleton_append, List.cons_append, List.nil_append]
      · refine producerOk_of_consumer_move N s _ rfl rfl rfl rfl ?_ hp
        simp only [hsucc]
        unfold ringDist at cd ⊢
        split_ifs at cd ⊢ <;> omega
      · simp only [ConsumerOk]

theorem threadStep_inv (N : Nat) (hN : (N : Int) ≤ INT_MAX) (total : Nat) (sent : List Int)
    (s : System N) (hinv : SystemInv N sent s) (turn : Bool) :
    ∃ s1, threadStep N total s turn = some s1 ∧ SystemInv N sent s1 := by
  cases turn with
  | true =>
    obtain ⟨s1, h, hi, _⟩ := producerStep_inv N hN sent s hinv
    exact ⟨s1, by simp only [threadStep, if_true, h], hi⟩
  | false =>
    obtain ⟨s1, h, hi, _⟩ := consumerStep_inv N hN total sent s hinv
    exact ⟨s1, by simp [threadStep, h], hi⟩

theorem runSchedule_inv (N : Nat) (hN : (N : Int) ≤ INT_MAX) (total : Nat) (sent : List Int)
    (schedule : List Bool) :
    ∀ s : System N, SystemInv N sent s →
      ∃ s1, runSchedule N total s schedule = some s1 ∧ SystemInv N sent s1 := by
  induction schedule with
  | nil => intro s hinv; exact ⟨s, rfl, hinv⟩
  | cons turn rest ih =>
    intro s hinv
    obtain ⟨s1, h1, hi1⟩ := threadStep_inv N hN total sent s hinv turn
    obtain ⟨s2, h2, hi2⟩ := ih s1 hi1
    exact ⟨s2, by simp only [runSchedule, h1, h2], hi2⟩

theorem systemInv_start (N : Nat) (hN0 : 0 < N) (q0 : CircularQueue N) (cell : Int)
    (sent : List Int) : SystemInv N sent (start N (initQueue N q0) cell sent) := by
  refine ⟨inRange_initQueue N hN0 q0, ?_, ?_, ?_⟩
  · have : contents N (start N (initQueue N q0) cell sent).queue = [] :=
      contents_of_head_eq_tail N (initQueue N q0) rfl
    rw [this]
    rfl
  · simp only [ProducerOk, start]
  · simp only [ConsumerOk, start]

/-! ## Two threads: every run can be completed -/

theorem runSchedule_append (N : Nat) (total : Nat) (a b : List Bool) :
    ∀ s s1 s2 : System N, runSchedule N total s a = some s1 →
      runSchedule N total s1 b = some s2 → runSchedule N total s (a ++ b) = some s2 := by
  induction a with
  | nil =>
    intro s s1 s2 h1 h2
    simp only [runSchedule, Option.some.injEq] at h1
    subst h1
    exact h2
  | cons turn rest ih =>
    intro s s1 s2 h1 h2
    simp only [runSchedule] at h1
    cases hs : threadStep N total s turn with
    | none => rw [hs] at h1; exact absurd h1 (by simp)
    | some s3 =>
      rw [hs] at h1
      simp only at h1
      show runSchedule N total s (turn :: (rest ++ b)) = some s2
      simp only [runSchedule, hs]
      exact ih s3 s1 s2 h1 h2

theorem runSchedule_producer_first (N : Nat) (total : Nat) (s s1 s2 : System N)
    (rest : List Bool) (h1 : producerStep N s = some s1)
    (h2 : runSchedule N total s1 rest = some s2) :
    runSchedule N total s (true :: rest) = some s2 := by
  simp only [runSchedule, threadStep, if_true, h1, h2]

theorem runSchedule_consumer_first (N : Nat) (total : Nat) (s s1 s2 : System N)
    (rest : List Bool) (h1 : consumerStep N total s = some s1)
    (h2 : runSchedule N total s1 rest = some s2) :
    runSchedule N total s (false :: rest) = some s2 := by
  simp [runSchedule, threadStep, h1, h2]

/-- Steps the producer needs, running alone on a queue with room, to publish a value. -/
theorem producer_publishes (N : Nat) (hN : (N : Int) ≤ INT_MAX) (total : Nat)
    (sent : List Int) (s : System N) (hinv : SystemInv N sent s)
    (hsend : s.toSend ≠ []) (hroom : ringDist N s.queue.head s.queue.tail + 1 < N) :
    ∃ schedule s1, runSchedule N total s schedule = some s1 ∧ SystemInv N sent s1
      ∧ s1.received = s.received ∧ 1 ≤ ringDist N s1.queue.head s1.queue.tail := by
  obtain ⟨value, rest, hs⟩ : ∃ value rest, s.toSend = value :: rest := by
    cases h : s.toSend with
    | nil => exact absurd h hsend
    | cons value rest => exact ⟨value, rest, rfl⟩
  have hr := hinv.1
  obtain ⟨h0, h1, t0, t1⟩ := hr
  have hsucc := tmod_succ_of_inRange N s.queue.tail t0 t1
  have hov : ¬ INT_MAX < s.queue.tail + 1 := by omega
  have hin : 0 ≤ s.queue.tail ∧ s.queue.tail < (N : Int) := ⟨t0, t1⟩
  have htn : s.queue.tail.toNat < N := by omega
  -- the last step: the store of the new `tail`
  have last : ∀ (u : System N) (head : Int), SystemInv N sent u → u.toSend = value :: rest →
      u.producer = ProducerPc.storeTail head u.queue.tail → u.queue.head = s.queue.head →
      u.queue.tail = s.queue.tail → u.received = s.received →
      ∃ schedule s1, runSchedule N total u schedule = some s1 ∧ SystemInv N sent s1
        ∧ s1.received = s.received ∧ 1 ≤ ringDist N s1.queue.head s1.queue.tail := by
    intro u head hu hus hup huh hut hur
    obtain ⟨u1, hstep, hi1, hr1, _, _, hh1⟩ := producerStep_inv N hN sent u hu
    have hov1 : ¬ INT_MAX < u.queue.tail + 1 := by rw [hut]; exact hov
    have hexp : producerStep N u = some { u with
        queue := ⟨u.queue.buffer, u.queue.head, Int.tmod (u.queue.tail + 1) (N : Int)⟩
        producer := ProducerPc.loadHead
        toSend := rest } := by
      simp only [producerStep, hus, hup, hov1, if_false]
    rw [hexp] at hstep
    simp only [Option.some.injEq] at hstep
    refine ⟨[true], u1, runSchedule_producer_first N total u u1 u1 [] (by rw [hexp, hstep]) rfl,
      hi1, by rw [hr1, hur], ?_⟩
    rw [← hstep]
    simp only [huh, hut, hsucc]
    unfold ringDist at hroom ⊢
    split_ifs at hroom ⊢ <;> omega
  -- the step before: the write of the slot
  have write : ∀ (u : System N) (head : Int), SystemInv N sent u → u.toSend = value :: rest →
      u.producer = ProducerPc.writeSlot head u.queue.tail → u.queue.head = s.queue.head →
      u.queue.tail = s.queue.tail → u.received = s.received →
      ∃ schedule s1, runSchedule N total u schedule = some s1 ∧ SystemInv N sent s1
        ∧ s1.received = s.received ∧ 1 ≤ ringDist N s1.queue.head s1.queue.tail := by
    intro u head hu hus hup huh hut hur
    obtain ⟨u1, hstep, hi1, hr1, _, _, hh1⟩ := producerStep_inv N hN sent u hu
    have hin1 : 0 ≤ u.queue.tail ∧ u.queue.tail < (N : Int) := by rw [hut]; exact hin
    have hexp : producerStep N u = some { u with
        queue := ⟨Function.update u.queue.buffer ⟨u.queue.tail.toNat, by omega⟩ value,
          u.queue.head, u.queue.tail⟩
        producer := ProducerPc.storeTail head u.queue.tail } := by
      simp only [producerStep, hus, hup, hin1, and_self, dif_pos]
    rw [hexp] at hstep
    simp only [Option.some.injEq] at hstep
    obtain ⟨schedule, s1, hrun, hrest⟩ := last u1 head hi1 (by rw [← hstep]; exact hus)
      (by rw [← hstep]) (by rw [← hstep]; exact huh) (by rw [← hstep]; exact hut)
      (by rw [hr1, hur])
    exact ⟨true :: schedule, s1,
      runSchedule_producer_first N total u u1 s1 schedule (by rw [hexp, hstep]) hrun, hrest⟩
  -- a test of line 33 that passes
  have pass : ∀ (u : System N) (head : Int), SystemInv N sent u → u.toSend = value :: rest →
      u.producer = ProducerPc.loadTail head → Int.tmod (u.queue.tail + 1) (N : Int) ≠ head →
      u.queue.head = s.queue.head → u.queue.tail = s.queue.tail → u.received = s.received →
      ∃ schedule s1, runSchedule N total u schedule = some s1 ∧ SystemInv N sent s1
        ∧ s1.received = s.received ∧ 1 ≤ ringDist N s1.queue.head s1.queue.tail := by
    intro u head hu hus hup hne huh hut hur
    obtain ⟨u1, hstep, hi1, hr1, _, _, hh1⟩ := producerStep_inv N hN sent u hu
    have hov1 : ¬ INT_MAX < u.queue.tail + 1 := by rw [hut]; exact hov
    have hexp : producerStep N u
        = some { u with producer := ProducerPc.writeSlot head u.queue.tail } := by
      simp only [producerStep, hus, hup, hov1, hne, if_false]
    rw [hexp] at hstep
    simp only [Option.some.injEq] at hstep
    obtain ⟨schedule, s1, hrun, hrest⟩ := write u1 head hi1 (by rw [← hstep]; exact hus)
      (by rw [← hstep]) (by rw [← hstep]; exact huh) (by rw [← hstep]; exact hut)
      (by rw [hr1, hur])
    exact ⟨true :: schedule, s1,
      runSchedule_producer_first N total u u1 s1 schedule (by rw [hexp, hstep]) hrun, hrest⟩
  -- a fresh load of `head`
  have fresh : ∀ (u : System N), SystemInv N sent u → u.toSend = value :: rest →
      u.producer = ProducerPc.loadHead →
      u.queue.head = s.queue.head → u.queue.tail = s.queue.tail → u.received = s.received →
      ∃ schedule s1, runSchedule N total u schedule = some s1 ∧ SystemInv N sent s1
        ∧ s1.received = s.received ∧ 1 ≤ ringDist N s1.queue.head s1.queue.tail := by
    intro u hu hus hup huh hut hur
    obtain ⟨u1, hstep, hi1, hr1, _, _, hh1⟩ := producerStep_inv N hN sent u hu
    have hexp : producerStep N u
        = some { u with producer := ProducerPc.loadTail u.queue.head } := by
      simp only [producerStep, hus, hup]
    rw [hexp] at hstep
    simp only [Option.some.injEq] at hstep
    have hne : Int.tmod (u1.queue.tail + 1) (N : Int) ≠ u.queue.head := by
      rw [← hstep]
      simp only [huh, hut, hsucc]
      unfold ringDist at hroom
      split_ifs at hroom ⊢ <;> omega
    obtain ⟨schedule, s1, hrun, hrest⟩ := pass u1 u.queue.head hi1
      (by rw [← hstep]; exact hus) (by rw [← hstep]) hne (by rw [← hstep]; exact huh)
      (by rw [← hstep]; exact hut) (by rw [hr1, hur])
    exact ⟨true :: schedule, s1,
      runSchedule_producer_first N total u u1 s1 schedule (by rw [hexp, hstep]) hrun, hrest⟩
  cases hpc : s.producer with
  | loadHead => exact fresh s hinv hs hpc rfl rfl rfl
  | loadTail head =>
    by_cases hfull : Int.tmod (s.queue.tail + 1) (N : Int) = head
    · obtain ⟨u1, hstep, hi1, hr1, _, _, hh1⟩ := producerStep_inv N hN sent s hinv
      have hexp : producerStep N s = some { s with producer := ProducerPc.loadHead } := by
        simp only [producerStep, hs, hpc, hov, hfull, if_true, if_false]
      rw [hexp] at hstep
      simp only [Option.some.injEq] at hstep
      obtain ⟨schedule, s1, hrun, hrest⟩ := fresh u1 hi1 (by rw [← hstep]; exact hs)
        (by rw [← hstep]) (by rw [← hstep]) (by rw [← hstep]) hr1
      exact ⟨true :: schedule, s1,
        runSchedule_producer_first N total s u1 s1 schedule (by rw [hexp, hstep]) hrun, hrest⟩
    · exact pass s head hinv hs hpc hfull rfl rfl rfl
  | writeSlot head tail =>
    have hp := hinv.2.2.1
    simp only [ProducerOk, hpc] at hp
    obtain ⟨e, _⟩ := hp
    subst e
    exact write s head hinv hs hpc rfl rfl rfl
  | storeTail head tail =>
    have hp := hinv.2.2.1
    simp only [ProducerOk, hpc] at hp
    obtain ⟨e, _⟩ := hp
    subst e
    exact last s head hinv hs hpc rfl rfl rfl

/-- Steps the consumer needs, running alone on a queue that is not empty, to take a value. -/
theorem consumer_takes (N : Nat) (hN : (N : Int) ≤ INT_MAX) (total : Nat)
    (sent : List Int) (s : System N) (hinv : SystemInv N sent s)
    (hwant : s.received.length ≠ total) (hsome : 1 ≤ ringDist N s.queue.head s.queue.tail) :
    ∃ schedule s1, runSchedule N total s schedule = some s1 ∧ SystemInv N sent s1
      ∧ s1.received.length = s.received.length + 1 := by
  obtain ⟨h0, h1, t0, t1⟩ := hinv.1
  have hov : ¬ INT_MAX < s.queue.head + 1 := by omega
  have hin : 0 ≤ s.queue.head ∧ s.queue.head < (N : Int) := ⟨h0, h1⟩
  have hne : s.queue.head ≠ s.queue.tail := by
    unfold ringDist at hsome
    split_ifs at hsome <;> omega
  -- the last step: the store of the new `head`
  have last : ∀ (u : System N) (tail : Int), SystemInv N sent u →
      u.consumer = ConsumerPc.storeHead u.queue.head tail → u.queue.head = s.queue.head →
      u.received = s.received →
      ∃ schedule s1, runSchedule N total u schedule = some s1 ∧ SystemInv N sent s1
        ∧ s1.received.length = s.received.length + 1 := by
    intro u tail hu hup huh hur
    obtain ⟨u1, hstep, hi1, _⟩ := consumerStep_inv N hN total sent u hu
    have hw : ¬ u.received.length = total := by rw [hur]; exact hwant
    have hov1 : ¬ INT_MAX < u.queue.head + 1 := by rw [huh]; exact hov
    have hexp : consumerStep N total u = some { u with
        queue := ⟨u.queue.buffer, Int.tmod (u.queue.head + 1) (N : Int), u.queue.tail⟩
        consumer := ConsumerPc.loadHead
        received := u.received ++ [u.cell] } := by
      simp only [consumerStep, hw, hup, hov1, if_false]
    rw [hexp] at hstep
    simp only [Option.some.injEq] at hstep
    refine ⟨[false], u1,
      runSchedule_consumer_first N total u u1 u1 [] (by rw [hexp, hstep]) rfl, hi1, ?_⟩
    rw [← hstep]
    simp only [List.length_append, List.length_singleton, hur]
  -- the step before: the read of the slot
  have read : ∀ (u : System N) (tail : Int), SystemInv N sent u →
      u.consumer = ConsumerPc.readSlot u.queue.head tail → u.queue.head = s.queue.head →
      u.received = s.received →
      ∃ schedule s1, runSchedule N total u schedule = some s1 ∧ SystemInv N sent s1
        ∧ s1.received.length = s.received.length + 1 := by
    intro u tail hu hup huh hur
    obtain ⟨u1, hstep, hi1, _⟩ := consumerStep_inv N hN total sent u hu
    have hw : ¬ u.received.length = total := by rw [hur]; exact hwant
    have hin1 : 0 ≤ u.queue.head ∧ u.queue.head < (N : Int) := by rw [huh]; exact hin
    have hexp : consumerStep N total u = some { u with
        cell := u.queue.buffer ⟨u.queue.head.toNat, by omega⟩
        consumer := ConsumerPc.storeHead u.queue.head tail } := by
      simp only [consumerStep, hw, hup, hin1, and_self, dif_pos, if_false]
    rw [hexp] at hstep
    simp only [Option.some.injEq] at hstep
    obtain ⟨schedule, s1, hrun, hrest⟩ := last u1 tail hi1 (by rw [← hstep])
      (by rw [← hstep]; exact huh) (by rw [← hstep]; exact hur)
    exact ⟨false :: schedule, s1,
      runSchedule_consumer_first N total u u1 s1 schedule (by rw [hexp, hstep]) hrun, hrest⟩
  -- the load of `tail` and the test of line 46, which passes
  have test : ∀ (u : System N), SystemInv N sent u →
      u.consumer = ConsumerPc.loadTail u.queue.head → u.queue.head = s.queue.head →
      u.queue.tail = s.queue.tail → u.received = s.received →
      ∃ schedule s1, runSchedule N total u schedule = some s1 ∧ SystemInv N sent s1
        ∧ s1.received.length = s.received.length + 1 := by
    intro u hu hup huh hut hur
    obtain ⟨u1, hstep, hi1, _⟩ := consumerStep_inv N hN total sent u hu
    have hw : ¬ u.received.length = total := by rw [hur]; exact hwant
    have hne1 : u.queue.head ≠ u.queue.tail := by rw [huh, hut]; exact hne
    have hexp : consumerStep N total u
        = some { u with consumer := ConsumerPc.readSlot u.queue.head u.queue.tail } := by
      simp only [consumerStep, hw, hup, hne1, if_false]
    rw [hexp] at hstep
    simp only [Option.some.injEq] at hstep
    obtain ⟨schedule, s1, hrun, hrest⟩ := read u1 u.queue.tail hi1 (by rw [← hstep])
      (by rw [← hstep]; exact huh) (by rw [← hstep]; exact hur)
    exact ⟨false :: schedule, s1,
      runSchedule_consumer_first N total u u1 s1 schedule (by rw [hexp, hstep]) hrun, hrest⟩
  have hc := hinv.2.2.2
  cases hpc : s.consumer with
  | loadHead =>
    obtain ⟨u1, hstep, hi1, _⟩ := consumerStep_inv N hN total sent s hinv
    have hexp : consumerStep N total s
        = some { s with consumer := ConsumerPc.loadTail s.queue.head } := by
      simp only [consumerStep, hwant, hpc, if_false]
    rw [hexp] at hstep
    simp only [Option.some.injEq] at hstep
    obtain ⟨schedule, s1, hrun, hrest⟩ := test u1 hi1 (by rw [← hstep])
      (by rw [← hstep]) (by rw [← hstep]) (by rw [← hstep])
    exact ⟨false :: schedule, s1,
      runSchedule_consumer_first N total s u1 s1 schedule (by rw [hexp, hstep]) hrun, hrest⟩
  | loadTail head =>
    simp only [ConsumerOk, hpc] at hc
    subst hc
    exact test s hinv hpc rfl rfl rfl
  | readSlot head tail =>
    simp only [ConsumerOk, hpc] at hc
    obtain ⟨e, _⟩ := hc
    subst e
    exact read s tail hinv hpc rfl rfl
  | storeHead head tail =>
    simp only [ConsumerOk, hpc] at hc
    obtain ⟨e, _⟩ := hc
    subst e
    exact last s tail hinv hpc rfl rfl

theorem received_eq_of_length (N : Nat) (sent : List Int) (s : System N)
    (hinv : SystemInv N sent s) (hlen : s.received.length = sent.length) :
    s.received = sent := by
  have hsent := hinv.2.1
  have hl := congrArg List.length hsent
  simp only [List.length_append] at hl
  have h1 : contents N s.queue = [] := List.length_eq_zero.1 (by omega)
  have h2 : s.toSend = [] := List.length_eq_zero.1 (by omega)
  rw [h1, h2] at hsent
  simpa using hsent.symm

theorem run_can_complete (N : Nat) (hN2 : 2 ≤ N) (hN : (N : Int) ≤ INT_MAX) (sent : List Int)
    (n : Nat) :
    ∀ s : System N, SystemInv N sent s → sent.length - s.received.length = n →
      ∃ schedule s1, runSchedule N sent.length s schedule = some s1 ∧ SystemInv N sent s1
        ∧ s1.received = sent := by
  induction n with
  | zero =>
    intro s hinv hn
    have hl := congrArg List.length hinv.2.1
    simp only [List.length_append] at hl
    exact ⟨[], s, rfl, hinv, received_eq_of_length N sent s hinv (by omega)⟩
  | succ n ih =>
    intro s hinv hn
    have hwant : s.received.length ≠ sent.length := by omega
    have hl := congrArg List.length hinv.2.1
    simp only [List.length_append, length_contents, occupancy_eq_ringDist] at hl
    have ready : ∃ schedule s1, runSchedule N sent.length s schedule = some s1
        ∧ SystemInv N sent s1 ∧ s1.received = s.received
        ∧ 1 ≤ ringDist N s1.queue.head s1.queue.tail := by
      by_cases hd : 1 ≤ ringDist N s.queue.head s.queue.tail
      · exact ⟨[], s, rfl, hinv, rfl, hd⟩
      · have hsend : s.toSend ≠ [] := by
          intro h
          rw [h] at hl
          simp only [List.length_nil] at hl
          omega
        exact producer_publishes N hN sent.length sent s hinv hsend (by omega)
    obtain ⟨a, s1, hrun1, hi1, hr1, hd1⟩ := ready
    obtain ⟨b, s2, hrun2, hi2, hr2⟩ := consumer_takes N hN sent.length sent s1 hi1
      (by rw [hr1]; exact hwant) hd1
    obtain ⟨c, s3, hrun3, hi3, hr3⟩ := ih s2 hi2 (by rw [hr2, hr1]; omega)
    exact ⟨a ++ (b ++ c), s3,
      runSchedule_append N sent.length a (b ++ c) s s1 s3 hrun1
        (runSchedule_append N sent.length b c s1 s2 s3 hrun2 hrun3), hi3, hr3⟩

/-! ## Two threads: a thread running alone makes the calls of the sequential embedding -/

theorem producer_alone_is_enqueue (N : Nat) (total : Nat) (s : System N) (value : Int)
    (rest : List Int) (hs : s.toSend = value :: rest) (hpc : s.producer = ProducerPc.loadHead) :
    (∀ q1, enqueue N s.queue value = some (true, q1) →
        runSchedule N total s [true, true, true, true]
          = some { s with queue := q1, toSend := rest })
    ∧ (∀ q1, enqueue N s.queue value = some (false, q1) →
        runSchedule N total s [true, true] = some s)
    ∧ (enqueue N s.queue value = none →
        runSchedule N total s [true, true, true] = none) := by
  obtain ⟨q, p, ts, c, cell, rcv⟩ := s
  simp only at hs hpc
  subst hs hpc
  simp only [enqueue]
  by_cases hov : INT_MAX < q.tail + 1
  · simp [runSchedule, threadStep, producerStep, hov]
  · by_cases hfull : Int.tmod (q.tail + 1) (N : Int) = q.head
    · simp [runSchedule, threadStep, producerStep, hov, hfull]
    · by_cases hin : 0 ≤ q.tail ∧ q.tail < (N : Int)
      · simp [runSchedule, threadStep, producerStep, hov, hfull, hin]
      · simp [runSchedule, threadStep, producerStep, hov, hfull, hin]

theorem consumer_alone_is_dequeue (N : Nat) (total : Nat) (s : System N)
    (hwant : s.received.length ≠ total) (hpc : s.consumer = ConsumerPc.loadHead) :
    (∀ x q1, dequeue N s.queue s.cell = some (true, x, q1) →
        runSchedule N total s [false, false, false, false]
          = some { s with queue := q1, cell := x, received := s.received ++ [x] })
    ∧ (∀ x q1, dequeue N s.queue s.cell = some (false, x, q1) →
        runSchedule N total s [false, false] = some s)
    ∧ (dequeue N s.queue s.cell = none →
        runSchedule N total s [false, false, false, false] = none) := by
  obtain ⟨q, p, ts, c, cell, rcv⟩ := s
  simp only at hwant hpc
  subst hpc
  simp only [dequeue]
  by_cases he : q.head = q.tail
  · simp [runSchedule, threadStep, consumerStep, hwant, he]
  · by_cases hin : 0 ≤ q.head ∧ q.head < (N : Int)
    · by_cases hov : INT_MAX < q.head + 1
      · simp [runSchedule, threadStep, consumerStep, hwant, he, hin, hov]
      · simp [runSchedule, threadStep, consumerStep, hwant, he, hin, hov]
    · simp [runSchedule, threadStep, consumerStep, hwant, he, hin]

theorem sampleSchedule_received :
    (runSchedule QUEUE_SIZE 3 (start QUEUE_SIZE (initQueue QUEUE_SIZE emptyAtNine) 0 [1, 2, 3])
      sampleSchedule).map (fun s => (s.received, s.toSend, s.queue.head, s.queue.tail))
      = some ([1, 2, 3], [], 3, 3) := by
  rfl

/-! ## The claims on two threads -/

theorem next_value_in_slot (N : Nat) (sent : List Int) (s : System N)
    (hinv : SystemInv N sent s) (hsome : 1 ≤ ringDist N s.queue.head s.queue.tail) :
    sent[s.received.length]? = some (peek N s.queue.buffer s.queue.head.toNat) := by
  obtain ⟨⟨h0, h1, t0, t1⟩, hsent, _, _⟩ := hinv
  have hhn : s.queue.head.toNat < N := by omega
  have hne : s.queue.head ≠ s.queue.tail := by
    unfold ringDist at hsome
    split_ifs at hsome <;> omega
  have hpop := contents_pop N s.queue.buffer s.queue.head s.queue.tail
    ⟨h0, h1, t0, t1⟩ hne hhn
  have hq : contents N ⟨s.queue.buffer, s.queue.head, s.queue.tail⟩
      = contents N s.queue := rfl
  rw [hq] at hpop
  rw [hsent, hpop, peek_of_lt N s.queue.buffer s.queue.head.toNat hhn]
  simp only [List.append_assoc, List.cons_append]
  rw [List.getElem?_append_right (le_refl _)]
  simp

/-- C13 (concurrent FIFO). A producer thread sends the values of `sent` by calling `enqueue`
until it is accepted, a consumer thread calls `dequeue` until it has `sent.length` values,
both on a queue that `initQueue` has just initialised. Under every interleaving of their
loads, stores and buffer accesses the run has no undefined behaviour, the values received
so far are the first values sent, in order, and a consumer that has received `sent.length`
values has received exactly `sent`. Every such run can be continued to the point where the
consumer has received all of `sent`. -/
theorem concurrent_fifo (q0 : CircularQueue QUEUE_SIZE) (cell : Int) (sent : List Int)
    (schedule : List Bool) :
    ∃ s, runSchedule QUEUE_SIZE sent.length
          (start QUEUE_SIZE (initQueue QUEUE_SIZE q0) cell sent) schedule = some s
      ∧ s.received <+: sent
      ∧ (s.received.length = sent.length → s.received = sent)
      ∧ ∃ more s1, runSchedule QUEUE_SIZE sent.length s more = some s1
          ∧ s1.received = sent := by
  have hN := queueSize_le_intMax
  obtain ⟨s, hrun, hinv⟩ := runSchedule_inv QUEUE_SIZE hN sent.length sent schedule _
    (systemInv_start QUEUE_SIZE (by decide) q0 cell sent)
  refine ⟨s, hrun, ?_, received_eq_of_length QUEUE_SIZE sent s hinv, ?_⟩
  · exact ⟨contents QUEUE_SIZE s.queue ++ s.toSend, by
      rw [← List.append_assoc]; exact hinv.2.1.symm⟩
  · obtain ⟨more, s1, hmore, _, hrec⟩ :=
      run_can_complete QUEUE_SIZE (by decide) hN sent _ s hinv rfl
    exact ⟨more, s1, hmore, hrec⟩

/-- C14 (publish order). Under every interleaving of the two threads, on a queue that
`initQueue` has just initialised: when the producer is about to store the new `tail`, the
slot of the old `tail` already holds the value of the call; when the consumer, having
loaded a `tail` other than `head`, is about to read `buffer[head]`, that slot holds the
next value sent; when the consumer is about to store the new `head`, its cell already
holds that value; and the producer is never about to write the slot that the consumer is
about to read or has read without having advanced `head`. -/
theorem publish_order (q0 : CircularQueue QUEUE_SIZE) (cell : Int) (sent : List Int)
    (schedule : List Bool) :
    ∃ s, runSchedule QUEUE_SIZE sent.length
          (start QUEUE_SIZE (initQueue QUEUE_SIZE q0) cell sent) schedule = some s
      ∧ (∀ head tail value rest, s.producer = ProducerPc.storeTail head tail →
          s.toSend = value :: rest →
          tail = s.queue.tail ∧ 0 ≤ tail ∧ tail < (QUEUE_SIZE : Int)
            ∧ peek QUEUE_SIZE s.queue.buffer tail.toNat = value)
      ∧ (∀ head tail, s.consumer = ConsumerPc.readSlot head tail →
          head = s.queue.head ∧ 0 ≤ head ∧ head < (QUEUE_SIZE : Int)
            ∧ sent[s.received.length]? = some (peek QUEUE_SIZE s.queue.buffer head.toNat))
      ∧ (∀ head tail, s.consumer = ConsumerPc.storeHead head tail →
          head = s.queue.head ∧ sent[s.received.length]? = some s.cell)
      ∧ (∀ phead ptail chead ctail, s.producer = ProducerPc.writeSlot phead ptail →
          s.consumer = ConsumerPc.readSlot chead ctail
            ∨ s.consumer = ConsumerPc.storeHead chead ctail →
          ptail ≠ chead) := by
  have hN := queueSize_le_intMax
  obtain ⟨s, hrun, hinv⟩ := runSchedule_inv QUEUE_SIZE hN sent.length sent schedule _
    (systemInv_start QUEUE_SIZE (by decide) q0 cell sent)
  have hinv1 := hinv
  obtain ⟨⟨h0, h1, t0, t1⟩, hsent, hp, hc⟩ := hinv1
  refine ⟨s, hrun, ?_, ?_, ?_, ?_⟩
  · intro head tail value rest hpc hs
    simp only [ProducerOk, hpc] at hp
    obtain ⟨e, _, hval⟩ := hp
    subst e
    exact ⟨rfl, t0, t1, hval value rest hs⟩
  · intro head tail hpc
    simp only [ConsumerOk, hpc] at hc
    obtain ⟨e, hd⟩ := hc
    subst e
    exact ⟨rfl, h0, h1, next_value_in_slot QUEUE_SIZE sent s hinv hd⟩
  · intro head tail hpc
    simp only [ConsumerOk, hpc] at hc
    obtain ⟨e, hd, hcell⟩ := hc
    subst e
    exact ⟨rfl, by rw [hcell]; exact next_value_in_slot QUEUE_SIZE sent s hinv hd⟩
  · intro phead ptail chead ctail hpp hcc
    simp only [ProducerOk, hpp] at hp
    obtain ⟨e, _⟩ := hp
    have hd : chead = s.queue.head ∧ 1 ≤ ringDist QUEUE_SIZE s.queue.head s.queue.tail := by
      rcases hcc with hcc | hcc
      · simp only [ConsumerOk, hcc] at hc
        exact hc
      · simp only [ConsumerOk, hcc] at hc
        exact ⟨hc.1, hc.2.1⟩
    rw [e, hd.1]
    have := hd.2
    unfold ringDist at this
    split_ifs at this <;> omega

end CQueue

namespace CVariableStore

theorem getLast_cons_getD (v d : Int) (l : List Int) :
    (v :: l).getLast?.getD d = l.getLast?.getD v := by
  cases l with
  | nil => rfl
  | cons x l1 => rw [List.getLast?_cons_cons]; simp [List.getLast?_cons]

theorem runStore_value (calls : List StoreCall) :
    ∀ store : VariableStore,
      (runStore store calls).value = (setArguments calls).getLast?.getD store.value := by
  induction calls with
  | nil => intro store; rfl
  | cons c rest ih =>
    intro store
    cases c with
    | set v =>
      simp only [runStore, setArguments]
      rw [ih, getLast_cons_getD]
      rfl
    | get =>
      simp only [runStore, setArguments, get_variable]
      exact ih store

/-- C15 (last write wins). After `init_variable_store` and any finite sequence of
`set_variable` calls, with `get_variable` calls anywhere in between, `get_variable` returns
the argument of the most recent `set_variable` call, or `0` when there has been none, and
the store after `get_variable` is the store before it. -/
theorem last_write_wins (store : VariableStore) (calls : List StoreCall) :
    get_variable (runStore (init_variable_store store) calls)
      = ((setArguments calls).getLast?.getD 0, runStore (init_variable_store store) calls) := by
  simp only [get_variable, runStore_value]
  rfl

end CVariableStore

namespace PointerUtilities

/-- C16 (pointer round trip). On a platform whose pointers have `ptrBits ≤ 64` bits,
`uint64ToPointer (pointerToUInt64 p) = p` for every pointer `p`. -/
theorem pointer_round_trip (ptrBits ptr : Nat) (hw : ptrBits ≤ 64) (hp : ptr < 2 ^ ptrBits) :
    uint64ToPointer ptrBits (pointerToUInt64 ptrBits ptr) = ptr := by
  have h64 : ptr < 2 ^ 64 := Nat.lt_of_lt_of_le hp (Nat.pow_le_pow_right (by decide) hw)
  unfold uint64ToPointer pointerToUInt64 toUnsigned
  rw [Nat.mod_eq_of_lt hp, Nat.mod_eq_of_lt h64, Nat.mod_eq_of_lt hp]

theorem pointer_round_trip_witness :
    (64 ≤ 64 ∧ 18446744073709551615 < 2 ^ 64)
    ∧ uint64ToPointer 64 (pointerToUInt64 64 18446744073709551615) = 18446744073709551615 :=
  ⟨by decide, pointer_round_trip 64 18446744073709551615 (by decide) (by decide)⟩

end PointerUtilities
